import Mathlib

set_option maxHeartbeats 1000000

/-! Verification development for the hierarchy reconciliation engine and the
compact serialization codec of the mcs-editor application.  All definitions
are shallow embeddings of the functions in src/App.vue; JavaScript records
become Lean inductive values, in-place mutation of a freshly allocated record
becomes functional record rebuilding, and the one place where object identity
matters (buildTree's aliased copies) is additionally modelled with an explicit
store of records addressed by allocation index. -/

/-- Enumeration of the three values of the server_type field
(App.vue, `server_type: 'standalone' | 'parent' | 'child'`). -/
inductive ServerType where
  | standalone
  | parent
  | child
deriving DecidableEq, Repr

/-- Record shape of a server, following the Server interface in App.vue.
The children field holds the nested tree form (it is empty in the canonical
flat list), and priority is optional exactly as in the source
(`priority?: number`).  Server is an inductive rather than a structure
because children nests Server inside List. -/
inductive Server where
  | mk (ip : String) (comment : String) (tag : String) (tag_color : String)
       (tag_color_with_hash : String) (server_type : ServerType)
       (parent_ip : String) (selectedPreset : String) (ignore_in_list : Bool)
       (priority : Option Int) (children : List Server)

def Server.ip : Server → String
  | .mk v _ _ _ _ _ _ _ _ _ _ => v

def Server.comment : Server → String
  | .mk _ v _ _ _ _ _ _ _ _ _ => v

def Server.tag : Server → String
  | .mk _ _ v _ _ _ _ _ _ _ _ => v

def Server.tag_color : Server → String
  | .mk _ _ _ v _ _ _ _ _ _ _ => v

def Server.tag_color_with_hash : Server → String
  | .mk _ _ _ _ v _ _ _ _ _ _ => v

def Server.server_type : Server → ServerType
  | .mk _ _ _ _ _ v _ _ _ _ _ => v

def Server.parent_ip : Server → String
  | .mk _ _ _ _ _ _ v _ _ _ _ => v

def Server.selectedPreset : Server → String
  | .mk _ _ _ _ _ _ _ v _ _ _ => v

def Server.ignore_in_list : Server → Bool
  | .mk _ _ _ _ _ _ _ _ v _ _ => v

def Server.priority : Server → Option Int
  | .mk _ _ _ _ _ _ _ _ _ v _ => v

def Server.children : Server → List Server
  | .mk _ _ _ _ _ _ _ _ _ _ v => v

instance : Inhabited Server :=
  ⟨Server.mk "" "" "" "" "" ServerType.standalone "" "" false none []⟩

/-- Functional rendering of an assignment to the children field of a record. -/
def Server.setChildren : Server → List Server → Server
  | .mk a b c d e f g h i j _, ch => .mk a b c d e f g h i j ch

/-- Functional rendering of an assignment to the server_type field. -/
def Server.setType : Server → ServerType → Server
  | .mk a b c d e _ g h i j k, t => .mk a b c d e t g h i j k

/-- Functional rendering of an assignment to the parent_ip field. -/
def Server.setParentIp : Server → String → Server
  | .mk a b c d e f _ h i j k, p => .mk a b c d e f p h i j k

/-- Functional rendering of an assignment to the ip field. -/
def Server.setIp : Server → String → Server
  | .mk _ b c d e f g h i j k, v => .mk v b c d e f g h i j k

/-- Functional rendering of an assignment to the priority field. -/
def Server.setPriority : Server → Option Int → Server
  | .mk a b c d e f g h i _ k, p => .mk a b c d e f g h i p k

/-- Config record of App.vue (interface AppConfig). -/
structure AppConfig where
  footer : String
  servers : List Server
  show_offline_by_default : Bool

/-! Compact positional codec (App.vue lines 24-73).  JSON values that can
appear in the compact encoding are modelled by JVal. -/

/-- Minimal JSON value model used by the compact positional encoding. -/
inductive JVal where
  | jstr (s : String)
  | jnum (n : Int)
  | jarr (l : List JVal)

/-- Reading item[i] on a JS value: defined for arrays, undefined (none)
otherwise.  (JS also exposes numeric indices on strings; the only consumers
of this model feed the result to code that treats every non-array,
non-string-or-zero value the same way, see decodeServer.) -/
def JVal.index : JVal → Nat → Option JVal
  | .jarr l, i => l.get? i
  | _, _ => none

/-- Coercion of a decoded JSON value into a Lean string field.  The encoder
only ever stores strings at the slots where this is applied. -/
def JVal.asString : JVal → String
  | .jstr s => s
  | .jnum n => toString n
  | .jarr _ => ""

/-- Meaning of the JS expression `v || d` where the result is used as a
string: v is kept when truthy (nonempty string, nonzero number), otherwise
the default d is produced.  The encoder writes only strings or the numeric
sentinel 0 at the slots where this is used. -/
def jsOrString (v : Option JVal) (d : String) : String :=
  match v with
  | some (JVal.jstr s) => if s = "" then d else s
  | some (JVal.jnum n) => if n = 0 then d else toString n
  | some (JVal.jarr _) => ""
  | none => d

mutual

/-- Translation of jsonToCompactArray (App.vue lines 33-49): each server
becomes the positional array [ip, comment|0, tag|0, tag_color|0,
ignore(1/0), children|0], where a falsy field (empty string) is written as
the numeric sentinel 0 and children is 0 for a childless node. -/
def jsonToCompactArray : List Server → List JVal
  | [] => []
  | s :: rest => encodeServer s :: jsonToCompactArray rest

/-- Encoding of a single server record, the body of the map callback inside
jsonToCompactArray. -/
def encodeServer : Server → JVal
  | .mk ip comment tag tag_color _tch _st _pip _sel ignore _pr children =>
    JVal.jarr [ JVal.jstr ip,
      if comment = "" then JVal.jnum 0 else JVal.jstr comment,
      if tag = "" then JVal.jnum 0 else JVal.jstr tag,
      if tag_color = "" then JVal.jnum 0 else JVal.jstr tag_color,
      JVal.jnum (if ignore then 1 else 0),
      if children.length > 0 then JVal.jarr (jsonToCompactArray children)
      else JVal.jnum 0 ]

end

mutual

/-- Translation of compactArrayToJson (App.vue lines 52-73): rebuilds a
server from the positional array, defaulting comment and tag from the
sentinel to the empty string, tag_color to FF9800, reading ignore_in_list
from the 1/0 flag, recursing into the children slot when it is an array,
and resetting server_type, parent_ip and selectedPreset to placeholder
defaults (the encoding never carries them). -/
def compactArrayToJson : List JVal → List Server
  | [] => []
  | item :: rest => decodeServer item :: compactArrayToJson rest
termination_by l => sizeOf l

/-- Reading of the children slot: Array.isArray(item[S_CHILDREN]) selects the
recursive decode, anything else gives the empty children list. -/
def decodeChildren : Option JVal → List Server
  | some (JVal.jarr cs) => compactArrayToJson cs
  | _ => []
termination_by v => sizeOf v

/-- Decoding of a single compact entry, the body of the map callback inside
compactArrayToJson.  The ignore flag is the JS strict comparison
item[S_IGNORE] === 1, true only for the number 1. -/
def decodeServer : JVal → Server
  | JVal.jarr l =>
    Server.mk ((l.get? 0).getD (JVal.jnum 0)).asString
      (jsOrString (l.get? 1) "")
      (jsOrString (l.get? 2) "")
      (jsOrString (l.get? 3) "FF9800")
      ("#" ++ jsOrString (l.get? 3) "FF9800")
      ServerType.standalone "" ""
      (match l.get? 4 with
        | some (JVal.jnum n) => n == 1
        | _ => false)
      none
      (decodeChildren (l.get? 5))
  | item =>
    Server.mk item.asString
      (jsOrString none "")
      (jsOrString none "")
      (jsOrString none "FF9800")
      ("#" ++ jsOrString none "FF9800")
      ServerType.standalone "" "" false none []
termination_by v => sizeOf v
decreasing_by
  simp_wf
  cases hg : l[5]? with
  | none => simp; cases l <;> simp +arith
  | some v =>
    have hg5 : l.get? 5 = some v := by
      rw [List.get?_eq_getElem?]
      exact hg
    have hlt : sizeOf v < sizeOf l := List.sizeOf_lt_of_mem (List.get?_mem hg5)
    simp
    omega

end

mutual

/-- Expected image of a forest under decode-after-encode: every listed field
(ip, comment, tag, tag_color, ignore_in_list) and the tree shape are kept,
tag_color_with_hash is rederived from tag_color, and the fields the encoding
does not carry (server_type, parent_ip, selectedPreset, priority) are reset
to the decoder's placeholder defaults. -/
def normalizeServer : Server → Server
  | .mk ip comment tag tag_color _tch _st _pip _sel ignore _pr children =>
    Server.mk ip comment tag tag_color ("#" ++ tag_color)
      ServerType.standalone "" "" ignore none (normalizeForest children)

/-- Pointwise normalizeServer over a forest. -/
def normalizeForest : List Server → List Server
  | [] => []
  | s :: rest => normalizeServer s :: normalizeForest rest

end

mutual

/-- Hypothesis of the codec round-trip claim: no string field of any node in
the forest equals the sentinel 0 (in the JS loose sense, a string is equal
to 0 exactly when it is the empty string or the string 0). -/
def sentinelFreeServer : Server → Bool
  | .mk ip comment tag tag_color _ _ _ _ _ _ children =>
    ip != "" && ip != "0" && comment != "" && comment != "0" &&
    tag != "" && tag != "0" && tag_color != "" && tag_color != "0" &&
    sentinelFreeForest children

/-- Pointwise sentinelFreeServer over a forest. -/
def sentinelFreeForest : List Server → Bool
  | [] => true
  | s :: rest => sentinelFreeServer s && sentinelFreeForest rest

end

mutual

/-- Round-trip of a single sentinel-free server through the compact codec. -/
theorem decode_encode_server (s : Server) (h : sentinelFreeServer s = true) :
    decodeServer (encodeServer s) = normalizeServer s := by
  match s with
  | .mk ip comment tag tag_color tch st pip sel ignore pr children =>
    simp only [sentinelFreeServer, Bool.and_eq_true, bne_iff_ne, ne_eq] at h
    obtain ⟨⟨⟨⟨⟨⟨⟨⟨hip, hip0⟩, hc⟩, hc0⟩, ht⟩, ht0⟩, htc⟩, htc0⟩, hch⟩ := h
    have ih := decode_encode_forest children hch
    simp only [encodeServer, decodeServer, normalizeServer,
      if_neg hc, if_neg ht, if_neg htc]
    cases hlen : children with
    | nil =>
      subst hlen
      simp [jsOrString, JVal.asString, if_neg hc, if_neg ht, if_neg htc,
        normalizeForest, decodeChildren]
      cases ignore <;> simp
    | cons c cs =>
      rw [hlen] at ih
      simp [jsOrString, JVal.asString, if_neg hc, if_neg ht, if_neg htc,
        decodeChildren, ih]
      cases ignore <;> simp

/-- Round-trip of a sentinel-free forest through the compact codec. -/
theorem decode_encode_forest (l : List Server)
    (h : sentinelFreeForest l = true) :
    compactArrayToJson (jsonToCompactArray l) = normalizeForest l := by
  match l with
  | [] => simp [jsonToCompactArray, compactArrayToJson, normalizeForest]
  | s :: rest =>
    simp only [sentinelFreeForest, Bool.and_eq_true] at h
    simp only [jsonToCompactArray, compactArrayToJson, normalizeForest]
    rw [decode_encode_server s h.1, decode_encode_forest rest h.2]

end

/-- Claim C2: for every forest of servers whose field values never equal the
sentinel 0, decoding the compact encoding
(compactArrayToJson (jsonToCompactArray forest)) reproduces each node's ip,
comment, tag, tag_color, ignore_in_list and the exact tree shape, while
every decoded node's server_type is reset to standalone and its parent_ip to
the empty string: the round trip equals the normalizeForest image, which
keeps exactly the listed fields and the children structure and resets
server_type and parent_ip (and the other uncarried fields) to the decoder's
defaults. -/
theorem C2_compact_codec_roundtrip (forest : List Server)
    (h : sentinelFreeForest forest = true) :
    compactArrayToJson (jsonToCompactArray forest) = normalizeForest forest :=
  decode_encode_forest forest h

/-- Sample two-level forest used by concrete witnesses. -/
def sampleForest : List Server :=
  [Server.mk "hub.example.com" "main hub" "lobby" "3498DB" "#3498DB"
     ServerType.parent "" "" false (some 10)
     [Server.mk "s1.example.com" "survival one" "survival" "2ECC71" "#2ECC71"
        ServerType.child "hub.example.com" "" true (some 20) []]]

/-- Witness for claim C2: the round trip evaluated on a concrete sentinel-free
two-level forest. -/
theorem C2_compact_codec_roundtrip_witness :
    sentinelFreeForest sampleForest = true ∧
    compactArrayToJson (jsonToCompactArray sampleForest) =
      normalizeForest sampleForest := by
  have h : sentinelFreeForest sampleForest = true := by
    simp only [sampleForest, sentinelFreeForest, sentinelFreeServer]
    decide
  exact ⟨h, C2_compact_codec_roundtrip sampleForest h⟩

/-! Compression wrapper (App.vue lines 76-127). -/

/-- Translation of fromUrlSafeBase64 (App.vue lines 82-88): minus goes back
to plus, underscore to slash, and the while loop appends '=' until the
length is a multiple of 4.  The loop runs (4 - len mod 4) mod 4 times. -/
def fromUrlSafeBase64 (urlSafeBase64 : String) : String :=
  let base64 := (urlSafeBase64.replace "-" "+").replace "_" "/"
  base64 ++ String.mk (List.replicate ((4 - base64.length % 4) % 4) '=')

/-- External library calls made by decompressConfig (atob, pako.inflate,
JSON.parse).  They are parameters of the model: each may either return a
value or throw, and any thrown exception is an Except.error.  The pure
conversion from the binary string to the char-code array is folded into
atob, which directly yields the byte list. -/
structure DecompressStages where
  atob : String → Except String (List Nat)
  inflate : List Nat → Except String String
  jsonParse : String → Except String JVal

/-- Reading the footer slot: the JS expression
compactStructure[0] === 0 ? '' : (compactStructure[0] || '').  A nonzero
number would be kept by JS and is coerced to its decimal string here; an
array (truthy, kept by JS) is coerced to a string placeholder.  Neither
shape is produced by the encoder. -/
def footerOfSlot : Option JVal → String
  | some (JVal.jnum n) => if n = 0 then "" else toString n
  | some (JVal.jstr s) => s
  | some (JVal.jarr _) => ""
  | none => ""

/-- Reading the show_offline slot: compactStructure[1] === 1. -/
def showOfflineOfSlot : Option JVal → Bool
  | some (JVal.jnum n) => n == 1
  | _ => false

/-- Calling compactData.map inside compactArrayToJson throws a TypeError
when the argument is not an array (in particular when the slot is absent);
asArray models that throw. -/
def asArray : Option JVal → Except String (List JVal)
  | some (JVal.jarr l) => Except.ok l
  | _ => Except.error "TypeError: not an array"

/-- Body of decompressConfig before the surrounding try/catch (App.vue
lines 108-127): every stage that can throw is sequenced in Except, in the
order the source performs them. -/
def decompressStagesRun (st : DecompressStages) (encodedString : String) :
    Except String AppConfig := do
  let base64 := fromUrlSafeBase64 encodedString
  let charData ← st.atob base64
  let inflated ← st.inflate charData
  let compactStructure ← st.jsonParse inflated
  let arr ← asArray (compactStructure.index 2)
  let servers := compactArrayToJson arr
  Except.ok
    { footer := footerOfSlot (compactStructure.index 0),
      servers := servers,
      show_offline_by_default := showOfflineOfSlot (compactStructure.index 1) }

/-- Translation of decompressConfig (App.vue lines 108-127): the whole body
runs inside try/catch, so every stage exception is caught inside the
function and surfaced as the single failure value null (none); a successful
run yields the rebuilt config. -/
def decompressConfig (st : DecompressStages) (encodedString : String) :
    Option AppConfig :=
  match decompressStagesRun st encodedString with
  | Except.ok c => some c
  | Except.error _ => none

/-- Claim C7: for every input string (and every behaviour of the external
atob / inflate / JSON.parse stages), decompressConfig never propagates an
exception: whenever the staged body throws (Except.error), the function
returns exactly the normalized failure value none, and whenever the body
succeeds the function returns its value.  Totality of decompressConfig as a
Lean function is the model of never throws. -/
theorem C7_decompress_fail_closed (st : DecompressStages) (s : String) :
    (∀ e, decompressStagesRun st s = Except.error e →
      decompressConfig st s = none) ∧
    (∀ c, decompressStagesRun st s = Except.ok c →
      decompressConfig st s = some c) := by
  refine ⟨fun e he => ?_, fun c hc => ?_⟩
  · simp [decompressConfig, he]
  · simp [decompressConfig, hc]

/-- Stage functions that throw at the very first step, as atob does on a
string that is not valid base64. -/
def failingStages : DecompressStages :=
  { atob := fun _ => Except.error "InvalidCharacterError",
    inflate := fun _ => Except.error "incorrect header check",
    jsonParse := fun _ => Except.error "SyntaxError: Unexpected token" }

/-- Witness for claim C7: on a malformed input whose atob stage throws, the
function returns none. -/
theorem C7_decompress_fail_closed_witness :
    decompressConfig failingStages "not base64 at all!!!" = none :=
  (C7_decompress_fail_closed failingStages "not base64 at all!!!").1
    "InvalidCharacterError" rfl

/-! Branch structure of loadConfig (App.vue lines 1166-1222). -/

/-- Containment test input.includes with the fixed needle the source uses,
rendered on the underlying character lists: the needle occurs as a
contiguous infix. -/
def containsDataParam (input : String) : Bool :=
  decide ("?data=".data <:+: input.data)

/-- Prefix test input.startsWith with the fixed prefix http the source uses,
rendered on the underlying character lists. -/
def startsWithHttp (input : String) : Bool :=
  input.data.take 4 == "http".data

/-- Possible dispositions of the (trimmed, nonempty) input inside
loadConfig. -/
inductive LoadRoute where
  | urlData
  | rawJson
deriving DecidableEq, Repr

/-- Branch selected by loadConfig (App.vue line 1187): an input that starts
with http and contains the substring ?data= is treated as a share URL whose
data parameter is decompressed; every other input falls through to the
else branch, where it is handed to parseAndSetConfig as raw JSON text.
There is no branch that attempts decompression of a bare payload string. -/
def loadConfigRoute (input : String) : LoadRoute :=
  if startsWithHttp input && containsDataParam input then LoadRoute.urlData
  else LoadRoute.rawJson

/-- Claim C8 (divergence evidence): loadConfig recognizes only the URL form
and raw JSON.  Any input that does not start with http - in particular a
bare compressed payload, which consists only of base64url characters - is
routed to the raw-JSON branch, so decompression is never attempted on it,
contradicting the claimed second precedence step (accepting a bare payload
via decompression). -/
theorem C8_bare_payload_treated_as_json (input : String)
    (h : startsWithHttp input = false) :
    loadConfigRoute input = LoadRoute.rawJson := by
  simp [loadConfigRoute, h]

/-- Witness for claim C8: a concrete bare deflate-and-base64url payload
shape is dispatched to the raw-JSON branch. -/
theorem C8_bare_payload_treated_as_json_witness :
    loadConfigRoute "eNqrVkrLz1eyUoiOBQBCGAOF" = LoadRoute.rawJson :=
  C8_bare_payload_treated_as_json "eNqrVkrLz1eyUoiOBQBCGAOF" (by decide)

/-! Cycle detector (App.vue lines 774-793). -/

/-- Fuelled rendering of the while loop inside checkForCircularDependency
(App.vue lines 782-790): currentIp is the loop variable and visited the Set.
The loop body returns true when currentIp is already visited, otherwise adds
it, looks the server up and either follows its parent_ip (when nonempty,
truthy) or leaves the loop and returns false.  The fuel argument only bounds
the number of iterations so that the function is total; ccdGo_total proves
that the bound used by checkForCircularDependency is never reached, which is
exactly the termination argument for the JS loop. -/
def ccdGo (servers : List Server) : Nat → String → List String → Option Bool
  | 0, _, _ => none
  | fuel + 1, currentIp, visited =>
    if currentIp ∈ visited then some true
    else
      match servers.find? (fun s => s.ip == currentIp) with
      | some parentServer =>
        if parentServer.parent_ip = "" then some false
        else ccdGo servers fuel parentServer.parent_ip (currentIp :: visited)
      | none => some false

/-- Translation of checkForCircularDependency (App.vue lines 774-793).
Returns false immediately when newParentIp is empty (falsy) or equal to
serverIp; otherwise walks the parent_ip chain starting at newParentIp with
the visited set seeded with serverIp.  The fuel servers.length + 2 is enough
for the walk to finish (ccdGo_total), so the getD default is never used. -/
def checkForCircularDependency (servers : List Server)
    (serverIp newParentIp : String) : Bool :=
  if newParentIp == "" || serverIp == newParentIp then false
  else (ccdGo servers (servers.length + 2) newParentIp [serverIp]).getD false

/-- Pigeonhole argument for the walk: as long as the pool of reachable ip
values is closed under one step of the walk and the fuel exceeds the number
of pool elements not yet visited, the walk cannot run out of fuel, because
every iteration either returns or moves a pool element into visited. -/
theorem ccdGo_ne_none (servers : List Server) (pool : Finset String) :
    ∀ (fuel : Nat) (cur : String) (visited : List String),
      cur ∈ pool → (∀ s ∈ servers, s.parent_ip ∈ pool) →
      (pool \ visited.toFinset).card < fuel →
      ccdGo servers fuel cur visited ≠ none := by
  intro fuel
  induction fuel with
  | zero => intro cur visited _ _ hcard; omega
  | succ n ih =>
    intro cur visited hcur hclosed hcard
    rw [ccdGo]
    by_cases hv : cur ∈ visited
    · simp [hv]
    · simp only [if_neg hv]
      cases hfind : servers.find? (fun s => s.ip == cur) with
      | none => simp
      | some p =>
        by_cases hp : p.parent_ip = ""
        · simp [hp]
        · simp only [if_neg hp]
          apply ih
          · exact hclosed p (List.mem_of_find?_eq_some hfind)
          · exact hclosed
          · have hmem : cur ∈ pool \ visited.toFinset := by
              rw [Finset.mem_sdiff]
              exact ⟨hcur, by simpa using hv⟩
            have hstep : (pool \ (cur :: visited).toFinset).card
                < (pool \ visited.toFinset).card := by
              have h1 : pool \ (cur :: visited).toFinset
                  = (pool \ visited.toFinset).erase cur := by
                rw [List.toFinset_cons, Finset.sdiff_insert]
              rw [h1]
              have := Finset.card_erase_of_mem hmem
              have hpos : 0 < (pool \ visited.toFinset).card :=
                Finset.card_pos.mpr ⟨cur, hmem⟩
              omega
            omega

/-- With fuel servers.length + 2 the walk always completes: the pool of
reachable ips (the start ip plus every stored parent_ip) has at most
servers.length + 1 distinct members. -/
theorem ccdGo_total (servers : List Server) (startIp : String)
    (visited : List String) :
    ∃ b, ccdGo servers (servers.length + 2) startIp visited = some b := by
  have hne : ccdGo servers (servers.length + 2) startIp visited ≠ none := by
    apply ccdGo_ne_none servers
      (insert startIp (servers.map Server.parent_ip).toFinset)
    · exact Finset.mem_insert_self _ _
    · intro s hs
      exact Finset.mem_insert_of_mem (List.mem_toFinset.mpr
        (List.mem_map_of_mem Server.parent_ip hs))
    · have h1 : (servers.map Server.parent_ip).toFinset.card ≤ servers.length := by
        have := (servers.map Server.parent_ip).toFinset_card_le
        simpa using this
      have h2 : (insert startIp (servers.map Server.parent_ip).toFinset).card
          ≤ servers.length + 1 := by
        have := Finset.card_insert_le startIp (servers.map Server.parent_ip).toFinset
        omega
      have h3 : ((insert startIp (servers.map Server.parent_ip).toFinset)
          \ visited.toFinset).card
          ≤ (insert startIp (servers.map Server.parent_ip).toFinset).card :=
        Finset.card_le_card (Finset.sdiff_subset)
      omega
  exact Option.ne_none_iff_exists'.mp hne

/-- Claim C9: checkForCircularDependency terminates for every finite server
list and every argument pair, including lists whose stored parent_ip
references already form a cycle: the fuelled walk with the bound the
function uses always produces an answer, because each iteration either
returns or inserts a previously-unseen ip into the visited set, whose size
is bounded by the finite pool of reachable ips plus the seed. -/
theorem C9_cycle_check_terminates (servers : List Server)
    (serverIp newParentIp : String) :
    ∃ b, ccdGo servers (servers.length + 2) newParentIp [serverIp] = some b :=
  ccdGo_total servers newParentIp [serverIp]

/-- Spec-level description of the walk of section 4.3: starting at an ip
with a visited set, the walk returns true the moment it revisits a visited
ip, returns false when the chain reaches a dead end (an ip with no matching
server, or a server whose stored parent_ip is empty) without revisiting,
and otherwise records the current ip as visited and steps to the parent. -/
inductive WalkOutcome (servers : List Server) :
    String → List String → Bool → Prop where
  | revisit (cur : String) (visited : List String)
      (h : cur ∈ visited) : WalkOutcome servers cur visited true
  | deadEndUnknown (cur : String) (visited : List String)
      (h : cur ∉ visited)
      (hfind : servers.find? (fun s => s.ip == cur) = none) :
      WalkOutcome servers cur visited false
  | deadEndNoParent (cur : String) (visited : List String) (p : Server)
      (h : cur ∉ visited)
      (hfind : servers.find? (fun s => s.ip == cur) = some p)
      (hp : p.parent_ip = "") :
      WalkOutcome servers cur visited false
  | step (cur : String) (visited : List String) (p : Server) (b : Bool)
      (h : cur ∉ visited)
      (hfind : servers.find? (fun s => s.ip == cur) = some p)
      (hp : p.parent_ip ≠ "")
      (next : WalkOutcome servers p.parent_ip (cur :: visited) b) :
      WalkOutcome servers cur visited b

/-- Soundness of the fuelled walk for the spec-level walk relation. -/
theorem ccdGo_sound (servers : List Server) :
    ∀ (fuel : Nat) (cur : String) (visited : List String) (b : Bool),
      ccdGo servers fuel cur visited = some b →
      WalkOutcome servers cur visited b := by
  intro fuel
  induction fuel with
  | zero => intro cur visited b h; simp [ccdGo] at h
  | succ n ih =>
    intro cur visited b h
    rw [ccdGo] at h
    by_cases hv : cur ∈ visited
    · simp only [if_pos hv, Option.some.injEq] at h
      exact h ▸ WalkOutcome.revisit cur visited hv
    · simp only [if_neg hv] at h
      cases hfind : servers.find? (fun s => s.ip == cur) with
      | none =>
        rw [hfind] at h
        simp only [Option.some.injEq] at h
        exact h ▸ WalkOutcome.deadEndUnknown cur visited hv hfind
      | some p =>
        rw [hfind] at h
        by_cases hp : p.parent_ip = ""
        · simp only [if_pos hp, Option.some.injEq] at h
          exact h ▸ WalkOutcome.deadEndNoParent cur visited p hv hfind hp
        · simp only [if_neg hp] at h
          exact WalkOutcome.step cur visited p b hv hfind hp (ih _ _ _ h)

/-- Determinism of the spec-level walk relation: the four rules are
mutually exclusive, so the outcome is unique. -/
theorem WalkOutcome_unique (servers : List Server) :
    ∀ {cur : String} {visited : List String} {b b2 : Bool},
      WalkOutcome servers cur visited b →
      WalkOutcome servers cur visited b2 → b = b2 := by
  intro cur visited b b2 h1
  induction h1 with
  | revisit cur visited h =>
    intro h2
    cases h2 with
    | revisit _ _ _ => rfl
    | deadEndUnknown _ _ h2v _ => exact absurd h h2v
    | deadEndNoParent _ _ _ h2v _ _ => exact absurd h h2v
    | step _ _ _ _ h2v _ _ _ => exact absurd h h2v
  | deadEndUnknown cur visited h hfind =>
    intro h2
    cases h2 with
    | revisit _ _ h2v => exact absurd h2v h
    | deadEndUnknown _ _ _ _ => rfl
    | deadEndNoParent _ _ p2 _ hfind2 _ => simp [hfind] at hfind2
    | step _ _ p2 _ _ hfind2 _ _ => simp [hfind] at hfind2
  | deadEndNoParent cur visited p h hfind hp =>
    intro h2
    cases h2 with
    | revisit _ _ h2v => exact absurd h2v h
    | deadEndUnknown _ _ _ hfind2 => simp [hfind] at hfind2
    | deadEndNoParent _ _ p2 _ hfind2 _ => rfl
    | step _ _ p2 _ _ hfind2 hp2 _ =>
      rw [hfind] at hfind2
      simp only [Option.some.injEq] at hfind2
      exact absurd (hfind2 ▸ hp) hp2
  | step cur visited p b h hfind hp next ih =>
    intro h2
    cases h2 with
    | revisit _ _ h2v => exact absurd h2v h
    | deadEndUnknown _ _ _ hfind2 => simp [hfind] at hfind2
    | deadEndNoParent _ _ p2 _ hfind2 hp2 =>
      rw [hfind] at hfind2
      simp only [Option.some.injEq] at hfind2
      exact absurd (hfind2 ▸ hp2) hp
    | step _ _ p2 b2 _ hfind2 _ next2 =>
      rw [hfind] at hfind2
      simp only [Option.some.injEq] at hfind2
      exact ih (hfind2 ▸ next2)

/-- Three-server configuration of the concrete part of claim C4: root has
no parent, mid points at root, leaf points at mid. -/
def demoRoot : Server :=
  Server.mk "root.example.com" "" "" "" "" ServerType.standalone "" "" false
    none []

/-- Middle server of the C4 demo, child of root. -/
def demoMid : Server :=
  Server.mk "mid.example.com" "" "" "" "" ServerType.child "root.example.com"
    "" false none []

/-- Leaf server of the C4 demo, child of mid. -/
def demoLeaf : Server :=
  Server.mk "leaf.example.com" "" "" "" "" ServerType.child "mid.example.com"
    "" false none []

/-- Server list of the C4 demo. -/
def demoServers : List Server := [demoRoot, demoMid, demoLeaf]

/-- Claim C4: the cycle check returns false whenever newParentIp is empty or
equals serverIp; otherwise its boolean answer is exactly the outcome of the
spec-level walk along the parent_ip chain starting at newParentIp with the
visited set seeded with serverIp (true exactly on a revisit, false exactly
at a dead end); and in the concrete three-server chain the call with
(root ip, leaf ip) returns true. -/
theorem C4_cycle_check_correct :
    (∀ (servers : List Server) (serverIp newParentIp : String),
      ((newParentIp = "" ∨ serverIp = newParentIp) →
        checkForCircularDependency servers serverIp newParentIp = false) ∧
      (newParentIp ≠ "" → serverIp ≠ newParentIp → ∀ b : Bool,
        (checkForCircularDependency servers serverIp newParentIp = b ↔
          WalkOutcome servers newParentIp [serverIp] b))) ∧
    checkForCircularDependency demoServers "root.example.com"
      "leaf.example.com" = true := by
  constructor
  · intro servers serverIp newParentIp
    constructor
    · intro h
      rcases h with h | h <;>
        simp [checkForCircularDependency, h]
    · intro h1 h2 b
      obtain ⟨b0, hb0⟩ := ccdGo_total servers newParentIp [serverIp]
      have hbeq1 : (newParentIp == "") = false := by simp [h1]
      have hbeq2 : (serverIp == newParentIp) = false := by simp [h2]
      have hval : checkForCircularDependency servers serverIp newParentIp
          = b0 := by
        simp [checkForCircularDependency, hbeq1, hbeq2, hb0]
      have hw0 : WalkOutcome servers newParentIp [serverIp] b0 :=
        ccdGo_sound servers _ _ _ _ hb0
      constructor
      · intro hb
        exact (hb ▸ hval ▸ hw0)
      · intro hw
        rw [hval]
        exact WalkOutcome_unique servers hw0 hw
  · decide

/-- Witness for claim C4: the empty-parent early exit evaluated on the
concrete demo list, obtained by applying the main theorem. -/
theorem C4_cycle_check_correct_witness :
    checkForCircularDependency demoServers "root.example.com" "" = false :=
  (C4_cycle_check_correct.1 demoServers "root.example.com" "").1 (Or.inl rfl)

/-! Edit/Save transaction (App.vue lines 799-887). -/

/-- Rendering of String.prototype.trim: leading and trailing whitespace
characters are removed.  Implemented on the character list so that it
evaluates by kernel reduction. -/
def jsTrim (s : String) : String :=
  String.mk
    (((s.data.dropWhile Char.isWhitespace).reverse.dropWhile
      Char.isWhitespace).reverse)

/-- Modal mode values (MODAL_MODE) of the add/edit dialog. -/
inductive ModalMode where
  | add
  | edit
deriving DecidableEq, Repr

/-- Discrete validation failures surfaced by saveServer through showAlert:
empty address, duplicate address, an entity with children being given a
parent_ip, and the cycle check reporting a circular dependency.  Each
constructor stands for the corresponding alert message of the source. -/
inductive SaveError where
  | emptyIp
  | duplicateIp
  | parentCannotBecomeChild
  | circularDependency
deriving DecidableEq, Repr

/-- Promotion of a standalone parent (App.vue lines 851-854): the first
server whose ip equals the new parent_ip is switched from standalone to
parent in place. -/
def promoteParent (servers : List Server) (pip : String) : List Server :=
  match servers.findIdx? (fun s => s.ip == pip) with
  | some i =>
    if (servers.getD i default).server_type == ServerType.standalone then
      servers.set i ((servers.getD i default).setType ServerType.parent)
    else servers
  | none => servers

/-- Referential-integrity cascade (App.vue lines 863-869): every server
whose parent_ip equals the old ip is repointed at the new ip. -/
def cascadeParentIps (servers : List Server) (oldIp newIp : String) :
    List Server :=
  servers.map (fun s =>
    if s.parent_ip == oldIp then s.setParentIp newIp else s)

/-- Commit by identity (App.vue lines 872-875): the first server whose ip
equals the pre-edit ip is replaced by the edited record (Object.assign
copies every field of the modal copy onto it). -/
def assignAt (servers : List Server) (oldIp : String) (newRec : Server) :
    List Server :=
  match servers.findIdx? (fun s => s.ip == oldIp) with
  | some i => servers.set i newRec
  | none => servers

/-- Validation phase of saveServer (App.vue lines 806-842), in source order:
empty trimmed ip; duplicate ip, checked only when the ip is new or changed
(newIp !== editingServerIp.value); parent-cannot-become-child when a
parent_ip is being set in edit mode and the working copy has children; and
the cycle check, seeded with the pre-edit ip when one exists (the JS
expression editingServerIp.value || newIp).  The first failing step wins;
the source returns from the function at that point, before any mutation of
the canonical list. -/
def saveValidate (servers : List Server) (modalMode : ModalMode)
    (editingServerIp : Option String) (server : Server) :
    Option SaveError :=
  let newIp := jsTrim server.ip
  if newIp = "" then some SaveError.emptyIp
  else
    let isIpChanged := !(editingServerIp == some newIp)
    if isIpChanged && servers.any (fun s => s.ip == newIp) then
      some SaveError.duplicateIp
    else if server.parent_ip != "" &&
        (modalMode == ModalMode.edit && decide (0 < server.children.length)) then
      some SaveError.parentCannotBecomeChild
    else if server.parent_ip != "" &&
        checkForCircularDependency servers
          (match editingServerIp with
            | some e => if e = "" then newIp else e
            | none => newIp)
          server.parent_ip then
      some SaveError.circularDependency
    else none

/-- Commit phase of saveServer (App.vue lines 844-879): write the trimmed ip
into the working copy, derive its server_type from parent_ip and promote a
standalone parent; then, in edit mode, cascade the rename over every stored
parent_ip and replace the record found under the pre-edit ip with the
working copy (Object.assign copies every field), or append the working copy
in add mode. -/
def saveCommit (servers : List Server) (modalMode : ModalMode)
    (editingServerIp : Option String) (server : Server) : List Server :=
  let newIp := jsTrim server.ip
  let isIpChanged := !(editingServerIp == some newIp)
  let server1 := server.setIp newIp
  let server2 := if server1.parent_ip = ""
    then server1.setType ServerType.standalone
    else server1.setType ServerType.child
  let servers1 := if server1.parent_ip = "" then servers
    else promoteParent servers server1.parent_ip
  match modalMode with
  | ModalMode.edit =>
    let serversA :=
      if isIpChanged &&
          (match editingServerIp with
            | some e => e != ""
            | none => false) then
        cascadeParentIps servers1 (editingServerIp.getD "") newIp
      else servers1
    match editingServerIp with
    | some old => assignAt serversA old server2
    | none => serversA
  | ModalMode.add => servers1 ++ [server2]

/-- Translation of saveServer (App.vue lines 799-887) as a function of the
canonical list, the modal mode, the stored pre-edit ip (null in add mode)
and the modal's working copy of the server.  The result is the new canonical
list together with the validation error, if any: a validation failure
returns the list untouched (the source returns before any mutation), and
only a fully validated save runs the commit phase. -/
def saveServer (servers : List Server) (modalMode : ModalMode)
    (editingServerIp : Option String) (server : Server) :
    List Server × Option SaveError :=
  match saveValidate servers modalMode editingServerIp server with
  | some err => (servers, some err)
  | none => (saveCommit servers modalMode editingServerIp server, none)

/-- Claim C5: whenever any validation step of the save transaction fails,
the canonical list is returned completely unchanged (no partial mutation);
and for every server X whose working copy currently has at least one child,
saving an edit of X (same trimmed, nonempty ip) with parent_ip set to any
non-empty value fails with exactly the parent-cannot-become-child
validation error. -/
theorem C5_save_parent_cannot_become_child :
    (∀ (servers : List Server) (m : ModalMode) (e : Option String)
        (server : Server) (err : SaveError),
      (saveServer servers m e server).2 = some err →
      (saveServer servers m e server).1 = servers) ∧
    (∀ (servers : List Server) (server : Server),
      jsTrim server.ip ≠ "" →
      0 < server.children.length →
      server.parent_ip ≠ "" →
      saveServer servers ModalMode.edit (some (jsTrim server.ip)) server
        = (servers, some SaveError.parentCannotBecomeChild)) := by
  constructor
  · intro servers m e server err h
    cases hv : saveValidate servers m e server with
    | none => simp [saveServer, hv] at h
    | some err2 => simp [saveServer, hv]
  · intro servers server hip hch hpip
    have hbe : (server.parent_ip != "") = true := by simpa using hpip
    have hv : saveValidate servers ModalMode.edit (some (jsTrim server.ip))
        server = some SaveError.parentCannotBecomeChild := by
      unfold saveValidate
      simp [hip, hbe, hch]
    simp [saveServer, hv]

/-- Working copy used by the C5 witness: an edit of a parent that has one
child, with a non-empty requested parent_ip. -/
def demoEditX : Server :=
  Server.mk "x.example.com" "" "" "" "" ServerType.parent "p.example.com" ""
    false none
    [Server.mk "y.example.com" "" "" "" "" ServerType.child "x.example.com"
      "" false none []]

/-- Witness for claim C5: the concrete edit fails with exactly the parent
cannot-become-child error and returns the canonical list unchanged. -/
theorem C5_save_parent_cannot_become_child_witness :
    saveServer [demoEditX] ModalMode.edit (some (jsTrim demoEditX.ip))
      demoEditX = ([demoEditX], some SaveError.parentCannotBecomeChild) :=
  C5_save_parent_cannot_become_child.2 [demoEditX] demoEditX (by decide)
    (by decide) (by decide)

/-! Import normalizer (App.vue lines 1229-1305). -/

/-- Footer field of an imported JSON document: either already a plain string
or an object carrying a text field (App.vue lines 1291-1294). -/
inductive RawFooter where
  | text (s : String)
  | obj (text : String)

/-- Shape of one imported server entry before validation: JSON fields may
all be absent (none).  The children field carries nested entries. -/
inductive RawServer where
  | mk (ip : Option String) (comment : Option String) (tag : Option String)
       (tag_color : Option String) (ignore_in_list : Option Bool)
       (parent_ip : Option String) (server_type : Option ServerType)
       (priority : Option Int) (children : Option (List RawServer))

def RawServer.ip : RawServer → Option String
  | .mk v _ _ _ _ _ _ _ _ => v

def RawServer.children : RawServer → Option (List RawServer)
  | .mk _ _ _ _ _ _ _ _ v => v

/-- Shape of one flattened entry: a RawServer whose children property has
been deleted and whose parent_ip may have been stamped from the traversal
context (which itself may be undefined when the parent had no ip). -/
structure FlatRaw where
  ip : Option String
  comment : Option String
  tag : Option String
  tag_color : Option String
  ignore_in_list : Option Bool
  parent_ip : Option String
  server_type : Option ServerType
  priority : Option Int

/-- Truthy-or of JS over possibly-absent strings: a || b keeps a exactly
when a is a nonempty string. -/
def jsOrOptStr (a b : Option String) : Option String :=
  match a with
  | some s => if s = "" then b else some s
  | none => b

/-- Translation of flattenImportedServers (App.vue lines 1231-1244): each
entry receives parent_ip from the traversal context when its own is falsy,
loses its children property, and is followed by its recursively flattened
children, whose context is this entry's ip (possibly absent).  The top-level
call passes the empty string as context. -/
def flattenImportedServers : List RawServer → Option String → List FlatRaw
  | [], _ => []
  | RawServer.mk ip comment tag tag_color ignore pip st pr children :: rest,
      parentIp =>
    let flat : FlatRaw :=
      ⟨ip, comment, tag, tag_color, ignore, jsOrOptStr pip parentIp, st, pr⟩
    flat ::
      ((match children with
        | some cs => flattenImportedServers cs ip
        | none => []) ++ flattenImportedServers rest parentIp)

/-- Import failures thrown by processAndValidate (App.vue lines 1252-1273):
an entry with a falsy ip aborts during the loop; duplicated ips abort after
it, reporting each distinct duplicated value once ([...new Set(dups)]). -/
inductive ImportError where
  | missingIp
  | duplicateIps (dups : List String)

/-- Accumulator loop of the insertion-order deduplication performed by the
JS spread [...new Set(l)]: elements are added in order, skipping those
already present. -/
def setDedupGo : List String → List String → List String
  | [], acc => acc
  | x :: rest, acc => setDedupGo rest (if x ∈ acc then acc else acc ++ [x])

/-- Insertion-order deduplication, the value of the JS spread
[...new Set(l)]: the first occurrence of each element survives. -/
def setDedup (l : List String) : List String := setDedupGo l []

/-- Default-filling of one imported record (App.vue lines 1261-1268): the
object spread keeps the raw fields, tag_color_with_hash is derived when
tag_color is a nonempty string, ignore_in_list and comment are defaulted
from falsy, selectedPreset and children are reset.  Raw fields that JS
would leave undefined are represented by their Lean defaults. -/
def validateRecord (s : FlatRaw) : Server :=
  Server.mk (s.ip.getD "") (s.comment.getD "") (s.tag.getD "")
    (s.tag_color.getD "")
    (match s.tag_color with
      | some c => if c.length > 0 then "#" ++ c else "#FF9800"
      | none => "#FF9800")
    (s.server_type.getD ServerType.standalone)
    (s.parent_ip.getD "") ""
    (s.ignore_in_list.getD false)
    s.priority []

/-- Loop of processAndValidate (App.vue lines 1251-1270), carrying the seen
set, the duplicate accumulator and the validated output: a falsy ip throws
immediately; a seen ip is recorded as a duplicate; every entry is validated
and appended. -/
def processLoop : List FlatRaw → List String → List String → List Server →
    Except ImportError (List String × List Server)
  | [], _, duplicates, validated => Except.ok (duplicates, validated)
  | s :: rest, ipSet, duplicates, validated =>
    match s.ip with
    | none => Except.error ImportError.missingIp
    | some ip =>
      if ip = "" then Except.error ImportError.missingIp
      else
        processLoop rest (ip :: ipSet)
          (if ip ∈ ipSet then duplicates ++ [ip] else duplicates)
          (validated ++ [validateRecord s])

/-- Sorting comparator of App.vue line 1277, ascending (priority || 0).  A
stable merge sort models Array.prototype.sort, stable in JS. -/
def byPriority (a b : Server) : Bool :=
  a.priority.getD 0 ≤ b.priority.getD 0

/-- Translation of processAndValidate (App.vue lines 1246-1278): run the
loop, then abort with the list of distinct duplicated ips when any were
recorded, otherwise sort the validated entries by priority. -/
def processAndValidate (flatList : List FlatRaw) :
    Except ImportError (List Server) :=
  match processLoop flatList [] [] [] with
  | Except.error e => Except.error e
  | Except.ok (duplicates, validated) =>
    if duplicates.length > 0 then
      Except.error (ImportError.duplicateIps (setDedup duplicates))
    else Except.ok (validated.mergeSort byPriority)

/-- Parsed shape of the whole imported document. -/
structure RawConfig where
  footer : Option RawFooter
  servers : Option (List RawServer)
  show_offline_by_default : Option Bool

/-- Translation of parseAndSetConfig (App.vue lines 1229-1305) on an already
parsed document: flatten, validate, and only on success assign the three
config fields; any failure is caught and the config returned untouched
(the assignments at lines 1296-1298 are only reached after validation).
A string input additionally passes through JSON.parse, whose failure hits
the same catch and likewise leaves the config untouched. -/
def parseAndSetConfig (config : AppConfig) (imported : RawConfig) :
    AppConfig × Option ImportError :=
  let flatServers := flattenImportedServers (imported.servers.getD [])
    (some "")
  match processAndValidate flatServers with
  | Except.error e => (config, some e)
  | Except.ok validatedServers =>
    ({ footer :=
        (match imported.footer with
          | some (RawFooter.text s) => s
          | some (RawFooter.obj t) => if t = "" then "" else t
          | none => ""),
       servers := validatedServers,
       show_offline_by_default :=
        imported.show_offline_by_default.getD false },
     none)

/-- Falsy ip test of the source (!s.ip): the field is absent or empty. -/
def FlatRaw.ipFalsyB (s : FlatRaw) : Bool :=
  match s.ip with
  | none => true
  | some ip => ip == ""

/-- Present ip of a flattened entry (meaningful when the falsy test is
false). -/
def FlatRaw.ipVal (s : FlatRaw) : String := s.ip.getD ""

/-- Duplicate accumulator produced by a completed validation loop: the ip of
every entry already seen when reached, in traversal order, with
multiplicity. -/
def dupsOf : List FlatRaw → List String → List String
  | [], _ => []
  | s :: rest, seen =>
    (if FlatRaw.ipVal s ∈ seen then [FlatRaw.ipVal s] else []) ++
      dupsOf rest (FlatRaw.ipVal s :: seen)

/-- A falsy ip anywhere makes the loop abort with the missing-ip error. -/
theorem processLoop_missing (l : List FlatRaw) :
    ∀ (ipSet dups : List String) (acc : List Server),
      (∃ s ∈ l, FlatRaw.ipFalsyB s = true) →
      processLoop l ipSet dups acc = Except.error ImportError.missingIp := by
  induction l with
  | nil => intro _ _ _ h; obtain ⟨s, hs, _⟩ := h; exact absurd hs (by simp)
  | cons s rest ih =>
    intro ipSet dups acc h
    rw [processLoop]
    cases hip : s.ip with
    | none => rfl
    | some ip =>
      by_cases hemp : ip = ""
      · simp [hemp]
      · simp only [if_neg hemp]
        apply ih
        obtain ⟨t, ht, htf⟩ := h
        rcases List.mem_cons.mp ht with rfl | htr
        · exfalso
          rw [FlatRaw.ipFalsyB, hip] at htf
          simp at htf
          exact hemp htf
        · exact ⟨t, htr, htf⟩

/-- A loop over falsy-free entries completes, appending the accumulated
duplicates and the validated records. -/
theorem processLoop_ok (l : List FlatRaw) :
    ∀ (ipSet dups : List String) (acc : List Server),
      (∀ s ∈ l, FlatRaw.ipFalsyB s = false) →
      processLoop l ipSet dups acc =
        Except.ok (dups ++ dupsOf l ipSet,
          acc ++ l.map validateRecord) := by
  induction l with
  | nil => intro ipSet dups acc _; simp [processLoop, dupsOf]
  | cons s rest ih =>
    intro ipSet dups acc h
    have hs := h s (List.mem_cons_self s rest)
    rw [FlatRaw.ipFalsyB] at hs
    cases hip : s.ip with
    | none => rw [hip] at hs; simp at hs
    | some ip =>
      rw [hip] at hs
      have hemp : ¬ ip = "" := by simpa using hs
      have hval : FlatRaw.ipVal s = ip := by simp [FlatRaw.ipVal, hip]
      rw [processLoop, hip]
      simp only [if_neg hemp]
      rw [ih (ip :: ipSet)
        (if ip ∈ ipSet then dups ++ [ip] else dups)
        (acc ++ [validateRecord s])
        (fun t ht => h t (List.mem_cons_of_mem s ht))]
      rw [dupsOf, hval]
      by_cases hmem : ip ∈ ipSet <;>
        simp [hmem, List.append_assoc]

/-- Membership in the duplicate accumulator: an ip is recorded exactly when
it was already seen and occurs in the remaining entries, or occurs at least
twice among the remaining entries. -/
theorem mem_dupsOf (l : List FlatRaw) :
    ∀ (seen : List String) (x : String),
      x ∈ dupsOf l seen ↔
        ((x ∈ seen ∧ x ∈ l.map FlatRaw.ipVal) ∨
          2 ≤ (l.map FlatRaw.ipVal).count x) := by
  induction l with
  | nil => intro seen x; simp [dupsOf]
  | cons s rest ih =>
    intro seen x
    rw [dupsOf]
    by_cases hx : x = FlatRaw.ipVal s
    · subst hx
      constructor
      · intro h
        rcases List.mem_append.mp h with h | h
        · by_cases hseen : FlatRaw.ipVal s ∈ seen
          · exact Or.inl ⟨hseen, by simp⟩
          · rw [if_neg hseen] at h; simp at h
        · rcases (ih _ _).mp h with ⟨_, hmem⟩ | hcount
          · have h1 : 0 < (rest.map FlatRaw.ipVal).count (FlatRaw.ipVal s) :=
              List.count_pos_iff.mpr hmem
            right
            rw [List.map_cons, List.count_cons, if_pos (beq_self_eq_true _)]
            omega
          · right
            rw [List.map_cons, List.count_cons, if_pos (beq_self_eq_true _)]
            omega
      · intro h
        apply List.mem_append.mpr
        rcases h with ⟨hseen, _⟩ | hcount
        · exact Or.inl (by simp [hseen])
        · rw [List.map_cons, List.count_cons, if_pos (beq_self_eq_true _)] at hcount
          have hcr : 0 < (rest.map FlatRaw.ipVal).count (FlatRaw.ipVal s) := by
            omega
          right
          exact (ih _ _).mpr (Or.inl ⟨List.mem_cons_self _ _,
            List.count_pos_iff.mp hcr⟩)
    · have h1 : x ∉ (if FlatRaw.ipVal s ∈ seen then [FlatRaw.ipVal s]
          else []) := by
        by_cases hseen : FlatRaw.ipVal s ∈ seen <;> simp [hseen, hx]
      have hcnt : ((s :: rest).map FlatRaw.ipVal).count x
          = (rest.map FlatRaw.ipVal).count x := by
        rw [List.map_cons, List.count_cons,
          if_neg (by simp; exact fun h => hx h.symm)]
        omega
      constructor
      · intro h
        rcases List.mem_append.mp h with hL | hR
        · exact absurd hL h1
        · rcases (ih _ _).mp hR with ⟨hs2, hmem⟩ | hcount
          · rcases List.mem_cons.mp hs2 with h3 | h3
            · exact absurd h3 hx
            · refine Or.inl ⟨h3, ?_⟩
              rw [List.map_cons]
              exact List.mem_cons_of_mem _ hmem
          · right
            rw [hcnt]
            exact hcount
      · intro h
        apply List.mem_append.mpr
        right
        apply (ih _ _).mpr
        rcases h with ⟨hs2, hmem⟩ | hcount
        · rw [List.map_cons] at hmem
          rcases List.mem_cons.mp hmem with h3 | h3
          · exact absurd h3 hx
          · exact Or.inl ⟨List.mem_cons_of_mem _ hs2, h3⟩
        · right
          rw [hcnt] at hcount
          exact hcount

/-- Membership is preserved by the Set-spread deduplication loop. -/
theorem mem_setDedupGo (l : List String) :
    ∀ (acc : List String) (x : String),
      x ∈ setDedupGo l acc ↔ x ∈ acc ∨ x ∈ l := by
  induction l with
  | nil => intro acc x; simp [setDedupGo]
  | cons y rest ih =>
    intro acc x
    rw [setDedupGo]
    by_cases hy : y ∈ acc
    · simp only [if_pos hy, ih]
      constructor
      · intro h; rcases h with h | h
        · exact Or.inl h
        · exact Or.inr (List.mem_cons_of_mem y h)
      · intro h; rcases h with h | h
        · exact Or.inl h
        · rcases List.mem_cons.mp h with rfl | h2
          · exact Or.inl hy
          · exact Or.inr h2
    · simp only [if_neg hy, ih, List.mem_append, List.mem_cons,
        List.mem_singleton]
      tauto

/-- The Set-spread deduplication loop returns a duplicate-free list when the
accumulator starts duplicate-free. -/
theorem nodup_setDedupGo (l : List String) :
    ∀ acc : List String, acc.Nodup → (setDedupGo l acc).Nodup := by
  induction l with
  | nil => intro acc h; simpa [setDedupGo] using h
  | cons y rest ih =>
    intro acc h
    rw [setDedupGo]
    by_cases hy : y ∈ acc
    · simpa [hy] using ih acc h
    · simp only [if_neg hy]
      apply ih
      simpa [List.nodup_append] using ⟨h, hy⟩

/-- Membership characterization of setDedup. -/
theorem mem_setDedup (l : List String) (x : String) :
    x ∈ setDedup l ↔ x ∈ l := by
  rw [setDedup, mem_setDedupGo]
  simp

/-- setDedup returns every distinct element exactly once. -/
theorem nodup_setDedup (l : List String) : (setDedup l).Nodup :=
  nodup_setDedupGo l [] List.nodup_nil

/-- Raw entry carrying only an ip, as parsed from a JSON object of the form
with a single ip field. -/
def rawIpOnly (ip : String) : RawServer :=
  RawServer.mk (some ip) none none none none none none none none

/-- Import document of the concrete C6 example: two entries with the same
ip. -/
def rawDupConfig : RawConfig :=
  { footer := none,
    servers := some [rawIpOnly "a.com", rawIpOnly "a.com"],
    show_offline_by_default := none }

/-- Empty starting config used by the concrete C6 example. -/
def emptyConfig : AppConfig :=
  { footer := "", servers := [], show_offline_by_default := false }

/-- Claim C6: the import normalizer aborts the whole import when any
flattened entry lacks an ip (falsy test of the source), and aborts it
whenever two entries share an ip: every batch whose entries all carry an ip
and whose ip sequence has a value occurring at least twice fails with the
duplicate error, whose reported list contains each distinct duplicated
value exactly once (it is duplicate-free and holds exactly the ips
occurring at least twice); and on any failure the returned config is
exactly the one passed in (atomicity).  The concrete import of two entries
with ip a.com aborts, reports a.com once, and leaves the config
untouched. -/
theorem C6_import_atomic_and_duplicate_reporting :
    (∀ (config : AppConfig) (imported : RawConfig) (e : ImportError),
      (parseAndSetConfig config imported).2 = some e →
      (parseAndSetConfig config imported).1 = config) ∧
    (∀ (config : AppConfig) (imported : RawConfig),
      (∃ s ∈ flattenImportedServers (imported.servers.getD []) (some ""),
        FlatRaw.ipFalsyB s = true) →
      (parseAndSetConfig config imported).2 = some ImportError.missingIp) ∧
    (∀ (config : AppConfig) (imported : RawConfig),
      (∀ s ∈ flattenImportedServers (imported.servers.getD []) (some ""),
        FlatRaw.ipFalsyB s = false) →
      (∃ ip, 2 ≤ ((flattenImportedServers (imported.servers.getD [])
        (some "")).map FlatRaw.ipVal).count ip) →
      ∃ dups,
        (parseAndSetConfig config imported).2
            = some (ImportError.duplicateIps dups)
        ∧ dups.Nodup
        ∧ (∀ ip, ip ∈ dups ↔
            2 ≤ ((flattenImportedServers (imported.servers.getD [])
              (some "")).map FlatRaw.ipVal).count ip)) ∧
    parseAndSetConfig emptyConfig rawDupConfig
      = (emptyConfig, some (ImportError.duplicateIps ["a.com"])) := by
  refine ⟨?_, ?_, ?_, ?_⟩
  · intro config imported e h
    simp only [parseAndSetConfig] at h ⊢
    cases hpv : processAndValidate
        (flattenImportedServers (imported.servers.getD []) (some "")) with
    | error e2 => simp [hpv]
    | ok v => rw [hpv] at h; simp at h
  · intro config imported h
    have hloop := processLoop_missing
      (flattenImportedServers (imported.servers.getD []) (some ""))
      [] [] [] h
    simp only [parseAndSetConfig, processAndValidate, hloop]
  · intro config imported hok hdup
    obtain ⟨ip0, hip0⟩ := hdup
    have hloop := processLoop_ok
      (flattenImportedServers (imported.servers.getD []) (some ""))
      [] [] [] hok
    have hmem0 : ip0 ∈ dupsOf
        (flattenImportedServers (imported.servers.getD []) (some "")) [] :=
      (mem_dupsOf _ [] ip0).mpr (Or.inr hip0)
    have hlen :
        (dupsOf (flattenImportedServers (imported.servers.getD [])
          (some "")) []).length > 0 :=
      List.length_pos.mpr (List.ne_nil_of_mem hmem0)
    refine ⟨setDedup (dupsOf
        (flattenImportedServers (imported.servers.getD []) (some "")) []),
      ?_, nodup_setDedup _, fun ip => ?_⟩
    · simp only [parseAndSetConfig, processAndValidate, hloop,
        List.nil_append]
      rw [if_pos hlen]
    · rw [mem_setDedup, mem_dupsOf]
      simp
  · have hflat : flattenImportedServers (rawDupConfig.servers.getD [])
        (some "") =
        [⟨some "a.com", none, none, none, none, some "", none, none⟩,
         ⟨some "a.com", none, none, none, none, some "", none, none⟩] := by
      simp [rawDupConfig, rawIpOnly, flattenImportedServers, jsOrOptStr]
    simp only [parseAndSetConfig, hflat, processAndValidate, processLoop,
      FlatRaw.ipVal]
    simp +decide [setDedupGo, rawDupConfig, emptyConfig]

/-- Witness for claim C6: on the concrete duplicate import the config comes
back untouched, obtained by applying the atomicity part of the claim
theorem at the concrete failing input. -/
theorem C6_import_atomic_and_duplicate_reporting_witness :
    (parseAndSetConfig emptyConfig rawDupConfig).1 = emptyConfig :=
  C6_import_atomic_and_duplicate_reporting.1 emptyConfig rawDupConfig
    (ImportError.duplicateIps ["a.com"])
    (congrArg Prod.snd C6_import_atomic_and_duplicate_reporting.2.2.2)

/-! Reference-level model of buildTree (App.vue lines 1083-1113), used for
the frame property: records live in a store addressed by allocation index,
input records are the indices in refs, and the copies allocated by the map
pass are fresh indices.  Children are stored as indices because the source
pushes shared copy references through the ip map. -/

/-- Record cell of the store model: the fields of Server, with children as
store indices. -/
structure SRec where
  ip : String
  comment : String
  tag : String
  tag_color : String
  tag_color_with_hash : String
  server_type : ServerType
  parent_ip : String
  selectedPreset : String
  ignore_in_list : Bool
  priority : Option Int
  children : List Nat

instance : Inhabited SRec :=
  ⟨⟨"", "", "", "", "", ServerType.standalone, "", "", false, none, []⟩⟩

/-- Allocation pass of buildTree (App.vue lines 1085-1090): every input
record is spread into a copy with an empty children array; each copy is a
fresh record appended to the store, and the copy indices are returned in
input order. -/
def allocCopies : List SRec → List Nat → List SRec × List Nat
  | store, [] => (store, [])
  | store, r :: rest =>
    let store1 := store ++ [{ store.getD r default with children := [] }]
    let done := allocCopies store1 rest
    (done.1, store.length :: done.2)

/-- The ip map of buildTree (map[serverCopy.ip] = serverCopy): assignments
in input order mean a lookup yields the last copy bearing the ip. -/
def mapLookup (store : List SRec) (copies : List Nat) (ip : String) :
    Option Nat :=
  copies.reverse.find? (fun c => (store.getD c default).ip == ip)

/-- One forEach step of the linking pass of buildTree (App.vue lines
1094-1110): a copy with a resolvable parent_ip is marked child and appended
to the parent copy's children; a dangling parent_ip is self-healed (cleared
parent_ip, standalone type) and the copy becomes a root; a copy without
parent_ip is a root. -/
def linkStep (store1 : List SRec) (copies : List Nat)
    (acc : List SRec × List Nat) (c : Nat) : List SRec × List Nat :=
  let s := acc.1.getD c default
  if s.parent_ip ≠ "" then
    match mapLookup store1 copies s.parent_ip with
    | some p =>
      let storeA := acc.1.set c { s with server_type := ServerType.child }
      let parentRec := storeA.getD p default
      (storeA.set p { parentRec with children := parentRec.children ++ [c] },
        acc.2)
    | none =>
      (acc.1.set c
        { s with parent_ip := "", server_type := ServerType.standalone },
        acc.2 ++ [c])
  else (acc.1, acc.2 ++ [c])

/-- Store-level buildTree: allocate the copies, then run the linking pass
over them; the result is the final store and the root indices (the tree
array of the source). -/
def buildTreeS (store : List SRec) (refs : List Nat) :
    List SRec × List Nat :=
  let alloc := allocCopies store refs
  alloc.2.foldl (linkStep alloc.1 alloc.2) (alloc.1, [])

/-- The allocation pass only appends: the input store is a prefix of the
result, and every returned copy index is fresh (at least the input length)
and in range. -/
theorem allocCopies_spec : ∀ (refs : List Nat) (store : List SRec),
    (∃ ext, (allocCopies store refs).1 = store ++ ext) ∧
    (∀ c ∈ (allocCopies store refs).2,
      store.length ≤ c ∧ c < (allocCopies store refs).1.length) := by
  intro refs
  induction refs with
  | nil =>
    intro store
    exact ⟨⟨[], by simp [allocCopies]⟩, by simp [allocCopies]⟩
  | cons r rest ih =>
    intro store
    have h1 : (allocCopies store (r :: rest)).1
        = (allocCopies (store ++ [{ store.getD r default with
            children := [] }]) rest).1 := rfl
    have h2 : (allocCopies store (r :: rest)).2
        = store.length :: (allocCopies (store ++ [{ store.getD r default with
            children := [] }]) rest).2 := rfl
    obtain ⟨⟨ext, hext⟩, hmem⟩ :=
      ih (store ++ [{ store.getD r default with children := [] }])
    have hlen : (allocCopies (store ++ [{ store.getD r default with
        children := [] }]) rest).1.length
        = store.length + 1 + ext.length := by
      rw [hext]; simp; omega
    constructor
    · refine ⟨{ store.getD r default with children := [] } :: ext, ?_⟩
      rw [h1, hext]
      simp
    · intro c hc
      rw [h2] at hc
      rw [h1]
      rcases List.mem_cons.mp hc with hc | hc
      · subst hc
        exact ⟨Nat.le_refl _, by omega⟩
      · have h3 := hmem c hc
        have h4 : (store ++ [{ store.getD r default with
            children := [] }]).length = store.length + 1 := by simp
        exact ⟨by omega, h3.2⟩

/-- A successful map lookup yields one of the copy indices. -/
theorem mapLookup_mem {store : List SRec} {copies : List Nat} {ip : String}
    {p : Nat} (h : mapLookup store copies ip = some p) : p ∈ copies := by
  have := List.mem_of_find?_eq_some h
  exact List.mem_reverse.mp this

/-- One linking step does not touch any cell other than the stepped copy and
its resolved parent. -/
theorem linkStep_frame (store1 : List SRec) (copies : List Nat)
    (acc : List SRec × List Nat) (c : Nat) (j : Nat) (hjc : c ≠ j)
    (hlook : ∀ p, mapLookup store1 copies
      ((acc.1.getD c default).parent_ip) = some p → p ≠ j) :
    (linkStep store1 copies acc c).1.get? j = acc.1.get? j := by
  unfold linkStep
  dsimp only
  by_cases hp : (acc.1.getD c default).parent_ip ≠ ""
  · rw [if_pos hp]
    cases hm : mapLookup store1 copies (acc.1.getD c default).parent_ip with
    | some p =>
      have hpj := hlook p hm
      dsimp only
      rw [List.get?_set_ne _ _ hpj, List.get?_set_ne _ _ hjc]
    | none =>
      dsimp only
      rw [List.get?_set_ne _ _ hjc]
  · rw [if_neg hp]

/-- One linking step either keeps the root list or appends the stepped
copy. -/
theorem linkStep_snd (store1 : List SRec) (copies : List Nat)
    (acc : List SRec × List Nat) (c : Nat) :
    (linkStep store1 copies acc c).2 = acc.2 ∨
    (linkStep store1 copies acc c).2 = acc.2 ++ [c] := by
  unfold linkStep
  dsimp only
  by_cases hp : (acc.1.getD c default).parent_ip ≠ ""
  · rw [if_pos hp]
    cases hm : mapLookup store1 copies (acc.1.getD c default).parent_ip with
    | some p => exact Or.inl rfl
    | none => exact Or.inr rfl
  · rw [if_neg hp]
    exact Or.inr rfl

/-- Invariant of the linking pass: cells below the copy range keep their
values and all emitted roots are copy indices. -/
theorem foldl_linkStep_frame (store1 : List SRec) (copies : List Nat)
    (n : Nat) (st0 : List SRec) (hcop : ∀ c ∈ copies, n ≤ c) :
    ∀ (work : List Nat), (∀ c ∈ work, n ≤ c) →
    ∀ (acc : List SRec × List Nat),
      (∀ j, j < n → acc.1.get? j = st0.get? j) →
      (∀ t ∈ acc.2, n ≤ t) →
      (∀ j, j < n →
        (work.foldl (linkStep store1 copies) acc).1.get? j = st0.get? j) ∧
      (∀ t ∈ (work.foldl (linkStep store1 copies) acc).2, n ≤ t) := by
  intro work
  induction work with
  | nil => intro _ acc h1 h2; exact ⟨h1, h2⟩
  | cons c work ih =>
    intro hw acc h1 h2
    have hc : n ≤ c := hw c (List.mem_cons_self _ _)
    rw [List.foldl_cons]
    apply ih (fun t ht => hw t (List.mem_cons_of_mem _ ht))
    · intro j hj
      rw [linkStep_frame store1 copies acc c j (by omega)
        (fun p hp => by
          have := hcop p (mapLookup_mem hp)
          omega)]
      exact h1 j hj
    · intro t ht
      rcases linkStep_snd store1 copies acc c with hs | hs
      · rw [hs] at ht
        exact h2 t ht
      · rw [hs] at ht
        rcases List.mem_append.mp ht with ht | ht
        · exact h2 t ht
        · rw [List.mem_singleton.mp ht]
          exact hc

/-- Claim C10: buildTree never mutates the flat list it is given.  In the
store model every input record keeps exactly the field values it held before
the call (the store is only read below the copy range), and every root of
the produced tree is one of the freshly allocated copies, so the orphan
self-heal and the child marking only ever write to copies. -/
theorem C10_buildTree_frame (store : List SRec) (refs : List Nat) :
    (∀ j, j < store.length →
      (buildTreeS store refs).1.get? j = store.get? j) ∧
    (∀ t ∈ (buildTreeS store refs).2, store.length ≤ t) := by
  obtain ⟨⟨ext, hext⟩, hmem⟩ := allocCopies_spec refs store
  have hcop : ∀ c ∈ (allocCopies store refs).2, store.length ≤ c :=
    fun c hc => (hmem c hc).1
  have hbase : ∀ j, j < store.length →
      (allocCopies store refs).1.get? j = store.get? j := by
    intro j hj
    rw [hext]
    exact List.get?_append hj
  have := foldl_linkStep_frame (allocCopies store refs).1
    (allocCopies store refs).2 store.length store hcop
    (allocCopies store refs).2 hcop
    ((allocCopies store refs).1, []) hbase (by simp)
  exact this

/-- Witness for claim C10: the frame property evaluated at a concrete store
with one record referenced by the call. -/
theorem C10_buildTree_frame_witness :
    (buildTreeS [⟨"a.example.com", "", "", "", "", ServerType.standalone,
      "", "", false, none, []⟩] [0]).1.get? 0 =
      some ⟨"a.example.com", "", "", "", "", ServerType.standalone,
        "", "", false, none, []⟩ := by
  rw [(C10_buildTree_frame [⟨"a.example.com", "", "", "", "",
    ServerType.standalone, "", "", false, none, []⟩] [0]).1 0 (by decide)]
  rfl

/-! Tree flattener (App.vue lines 1122-1161). -/

mutual

/-- Body of the traverse closure of flattenTreeAndSync (App.vue lines
1129-1150) for one node: assign parent_ip from the traversal context,
recompute server_type (child when the context is nonempty, else parent when
the node currently has children, else standalone), assign the next priority
(counter + 1) * 10 and advance the counter, emit the flat copy without its
children property, then traverse the children with this node's ip as the
new context.  The threaded counter is returned alongside the emitted
records. -/
def flattenNode : Server → String → Nat → List Server × Nat
  | .mk ip comment tag tag_color tch _st _pip sel ignore _pr children,
      parentIp, counter =>
    let st := if parentIp ≠ "" then ServerType.child
      else if children.length > 0 then ServerType.parent
      else ServerType.standalone
    let flat : Server := .mk ip comment tag tag_color tch st parentIp sel
      ignore (some (((counter : Int) + 1) * 10)) []
    let sub := flattenList children ip (counter + 1)
    (flat :: sub.1, sub.2)
termination_by s _ _ => sizeOf s

/-- forEach of the traverse closure over a sibling list, threading the
counter left to right. -/
def flattenList : List Server → String → Nat → List Server × Nat
  | [], _, counter => ([], counter)
  | s :: rest, parentIp, counter =>
    let first := flattenNode s parentIp counter
    let restOut := flattenList rest parentIp first.2
    (first.1 ++ restOut.1, restOut.2)
termination_by l _ _ => sizeOf l

end

/-- Translation of flattenTreeAndSync as the new canonical list it writes
(the reactive suspend/resume around the write is UI plumbing): the pre-order
flattening of the tree with empty context and counter 0. -/
def flattenTreeAndSync (tree : List Server) : List Server :=
  (flattenList tree "" 0).1

mutual

/-- Pre-order visit sequence of one subtree, pairing every node with the ip
of its immediate ancestor in the traversal (the context; empty at the top
level).  This is the visit order the claim describes: the node first, then
its children in order. -/
def preorderCtx : Server → String → List (Server × String)
  | s@(.mk _ _ _ _ _ _ _ _ _ _ children), parentIp =>
    (s, parentIp) :: preorderCtxList children s.ip
termination_by s _ => sizeOf s

/-- Pre-order visit sequence of a forest: roots in order, each followed by
its subtree. -/
def preorderCtxList : List Server → String → List (Server × String)
  | [], _ => []
  | s :: rest, parentIp =>
    preorderCtx s parentIp ++ preorderCtxList rest parentIp
termination_by l _ => sizeOf l

end

/-- Stamp applied to the k-th visited node (counting from 0), written from
the claim: priority (k+1)*10, parent_ip equal to the traversal context,
server_type recomputed as child when the context is set, else parent when
the node currently has at least one child, else standalone; the emitted
record drops the children. -/
def stampVisit (k : Nat) (v : Server × String) : Server :=
  ((((v.1.setParentIp v.2).setType
      (if v.2 ≠ "" then ServerType.child
       else if v.1.children.length > 0 then ServerType.parent
       else ServerType.standalone)).setPriority
      (some (((k : Int) + 1) * 10))).setChildren [])

/-- Flattening as the claim words it: stamp the pre-order visit sequence
with consecutive indices from 0. -/
def specFlatten (tree : List Server) : List Server :=
  (preorderCtxList tree "").enum.map (fun kv => stampVisit kv.1 kv.2)

mutual

/-- The one-node flattener emits exactly the stamped pre-order visits of the
subtree, numbered from the incoming counter, and returns the counter
advanced by the number of visits. -/
theorem flattenNode_eq (s : Server) :
    ∀ (parentIp : String) (counter : Nat),
      flattenNode s parentIp counter
        = (((preorderCtx s parentIp).enumFrom counter).map
            (fun kv => stampVisit kv.1 kv.2),
           counter + (preorderCtx s parentIp).length) := by
  match s with
  | .mk ip comment tag tag_color tch st pip sel ignore pr children =>
    intro parentIp counter
    have ih := flattenList_eq children ip (counter + 1)
    rw [flattenNode, preorderCtx]
    simp only [Server.ip]
    rw [ih]
    simp only [List.enumFrom, List.map_cons, List.length_cons,
      Prod.mk.injEq]
    constructor
    · simp [stampVisit, Server.setParentIp, Server.setType,
        Server.setPriority, Server.setChildren, Server.children]
    · omega
termination_by sizeOf s

/-- The sibling-list flattener emits exactly the stamped pre-order visits of
the forest, numbered from the incoming counter. -/
theorem flattenList_eq (l : List Server) :
    ∀ (parentIp : String) (counter : Nat),
      flattenList l parentIp counter
        = (((preorderCtxList l parentIp).enumFrom counter).map
            (fun kv => stampVisit kv.1 kv.2),
           counter + (preorderCtxList l parentIp).length) := by
  match l with
  | [] => intro parentIp counter; simp [flattenList, preorderCtxList]
  | s :: rest =>
    intro parentIp counter
    have ihs := flattenNode_eq s parentIp counter
    have ihr := flattenList_eq rest
    rw [flattenList, preorderCtxList, ihs]
    rw [ihr parentIp (counter + (preorderCtx s parentIp).length)]
    rw [List.enumFrom_append, List.map_append]
    simp
    omega
termination_by sizeOf l

end

/-- Claim C3: for every forest, the flattener performs the pre-order walk
(roots in order, then each root's children in order) in which the k-th
visited node receives priority (k+1)*10, parent_ip equal to the ip of its
immediate ancestor in the traversal (empty at the top level), and
server_type recomputed as child when its parent_ip is set, else parent when
it currently has at least one child, else standalone: the flattened list is
exactly the stamped pre-order visit sequence. -/
theorem C3_flatten_is_stamped_preorder (tree : List Server) :
    flattenTreeAndSync tree = specFlatten tree := by
  rw [flattenTreeAndSync, specFlatten, flattenList_eq tree "" 0]
  rfl

/-! Value-level buildTree (App.vue lines 1083-1113) and the round-trip
claim. -/

/-- Copy pass of buildTree at the record level: the object spread with an
empty children array. -/
def clearChildren (s : Server) : Server := s.setChildren []

theorem ip_setChildren (s : Server) (ch : List Server) :
    (s.setChildren ch).ip = s.ip := by cases s; rfl

theorem parent_ip_setChildren (s : Server) (ch : List Server) :
    (s.setChildren ch).parent_ip = s.parent_ip := by cases s; rfl

theorem children_setChildren (s : Server) (ch : List Server) :
    (s.setChildren ch).children = ch := by cases s; rfl

theorem ip_setType (s : Server) (t : ServerType) :
    (s.setType t).ip = s.ip := by cases s; rfl

theorem parent_ip_setType (s : Server) (t : ServerType) :
    (s.setType t).parent_ip = s.parent_ip := by cases s; rfl

theorem children_setType (s : Server) (t : ServerType) :
    (s.setType t).children = s.children := by cases s; rfl

theorem ip_setParentIp (s : Server) (p : String) :
    (s.setParentIp p).ip = s.ip := by cases s; rfl

theorem parent_ip_setParentIp (s : Server) (p : String) :
    (s.setParentIp p).parent_ip = p := by cases s; rfl

theorem children_setParentIp (s : Server) (p : String) :
    (s.setParentIp p).children = s.children := by cases s; rfl

theorem ip_setPriority (s : Server) (p : Option Int) :
    (s.setPriority p).ip = s.ip := by cases s; rfl

theorem parent_ip_setPriority (s : Server) (p : Option Int) :
    (s.setPriority p).parent_ip = s.parent_ip := by cases s; rfl

theorem children_setPriority (s : Server) (p : Option Int) :
    (s.setPriority p).children = s.children := by cases s; rfl

theorem priority_setPriority (s : Server) (p : Option Int) :
    (s.setPriority p).priority = p := by cases s; rfl

theorem ip_clearChildren (s : Server) : (clearChildren s).ip = s.ip := by
  cases s; rfl

theorem parent_ip_clearChildren (s : Server) :
    (clearChildren s).parent_ip = s.parent_ip := by cases s; rfl

theorem children_clearChildren (s : Server) :
    (clearChildren s).children = [] := by cases s; rfl

/-- Index of the last copy bearing a given ip: JS builds the map in input
order with map[copy.ip] = copy, so later assignments overwrite earlier
ones. -/
def lastIdxWithIp : List Server → String → Option Nat
  | [], _ => none
  | c :: rest, p =>
    match lastIdxWithIp rest p with
    | some k => some (k + 1)
    | none => if c.ip = p then some 0 else none

/-- Indices of the copies the forEach pass appends to the children array of
copy i: those with a nonempty parent_ip that resolves through the ip map to
copy i, in input order (the push order of the source). -/
def childIdxs (copies : List Server) (i : Nat) : List Nat :=
  (List.range copies.length).filter (fun j =>
    (copies.getD j default).parent_ip != "" &&
      lastIdxWithIp copies (copies.getD j default).parent_ip == some i)

/-- Indices of the copies the forEach pass pushes to the root array: those
without parent_ip, and those whose parent_ip does not resolve (the orphan
self-heal), in input order. -/
def rootIdxs (copies : List Server) : List Nat :=
  (List.range copies.length).filter (fun j =>
    (copies.getD j default).parent_ip == "" ||
      (lastIdxWithIp copies (copies.getD j default).parent_ip).isNone)

/-- Materialization of the copy at index i as a nested value, reading off
the final object graph of the forEach pass: its children are the
materializations of the copies resolving to it; a resolvable parent_ip
marks the copy as child, a dangling one is self-healed.  The fuel bounds
the materialization depth; buildTree passes fuel exceeding the number of
copies, which suffices for everything reachable from a root because a
descent from a root cannot revisit a copy (each copy has at most one
resolved parent and roots have none). -/
def buildNode (copies : List Server) : Nat → Nat → Server
  | 0, i => copies.getD i default
  | fuel + 1, i =>
    let s := copies.getD i default
    let kids := (childIdxs copies i).map (buildNode copies fuel)
    if s.parent_ip ≠ "" then
      if (lastIdxWithIp copies s.parent_ip).isSome then
        (s.setType ServerType.child).setChildren kids
      else
        ((s.setParentIp "").setType ServerType.standalone).setChildren kids
    else s.setChildren kids

/-- Translation of buildTree (App.vue lines 1083-1113) at the value level:
copy every server with empty children, then materialize the roots with the
children the forEach pass accumulated into the copies.  The store-level
buildTreeS makes the copy sharing explicit; this version reads the final
object graph off as nested values. -/
def buildTree (flatList : List Server) : List Server :=
  let copies := flatList.map clearChildren
  (rootIdxs copies).map (buildNode copies (copies.length + 1))

/-- Soundness of the ip map lookup: a hit is in range and bears the ip. -/
theorem lastIdxWithIp_spec : ∀ (copies : List Server) (p : String) (k : Nat),
    lastIdxWithIp copies p = some k →
    k < copies.length ∧ (copies.getD k default).ip = p := by
  intro copies
  induction copies with
  | nil => intro p k h; simp [lastIdxWithIp] at h
  | cons c rest ih =>
    intro p k h
    rw [lastIdxWithIp] at h
    cases hr : lastIdxWithIp rest p with
    | some k2 =>
      rw [hr] at h
      simp only [Option.some.injEq] at h
      subst h
      obtain ⟨h1, h2⟩ := ih p k2 hr
      refine ⟨by simp; omega, ?_⟩
      simpa using h2
    | none =>
      rw [hr] at h
      by_cases hc : c.ip = p
      · rw [if_pos hc] at h
        simp only [Option.some.injEq] at h
        subst h
        exact ⟨by simp, by simpa using hc⟩
      · rw [if_neg hc] at h
        simp at h

/-- Completeness of the ip map lookup: a miss means no copy bears the ip. -/
theorem lastIdxWithIp_none : ∀ (copies : List Server) (p : String),
    lastIdxWithIp copies p = none ↔ ∀ c ∈ copies, c.ip ≠ p := by
  intro copies
  induction copies with
  | nil => intro p; simp [lastIdxWithIp]
  | cons c rest ih =>
    intro p
    rw [lastIdxWithIp]
    cases hr : lastIdxWithIp rest p with
    | some k =>
      simp only []
      constructor
      · intro h; simp at h
      · intro h
        exfalso
        obtain ⟨hk, hkp⟩ := lastIdxWithIp_spec rest p k hr
        have hmem : rest.getD k default ∈ rest := by
          rw [List.getD_eq_get rest default hk]
          exact List.get_mem rest k hk
        exact h (rest.getD k default) (List.mem_cons_of_mem c hmem) hkp
    | none =>
      simp only []
      by_cases hc : c.ip = p
      · rw [if_pos hc]
        constructor
        · intro h; simp at h
        · intro h
          exact absurd hc (h c (List.mem_cons_self c rest))
      · rw [if_neg hc]
        constructor
        · intro _ t ht
          rcases List.mem_cons.mp ht with rfl | ht
          · exact hc
          · exact (ih p).mp hr t ht
        · intro _; rfl

/-- Under unique ips the map lookup hits exactly the index bearing the ip. -/
theorem lastIdxWithIp_eq_some_iff (copies : List Server)
    (hnd : (copies.map Server.ip).Nodup) (p : String) (i : Nat) :
    lastIdxWithIp copies p = some i ↔
      i < copies.length ∧ (copies.getD i default).ip = p := by
  constructor
  · exact lastIdxWithIp_spec copies p i
  · rintro ⟨hi, hip⟩
    cases hl : lastIdxWithIp copies p with
    | none =>
      exfalso
      have hmem : copies.getD i default ∈ copies := by
        rw [List.getD_eq_get copies default hi]
        exact List.get_mem copies i hi
      exact (lastIdxWithIp_none copies p).mp hl _ hmem hip
    | some k =>
      obtain ⟨hk, hkp⟩ := lastIdxWithIp_spec copies p k hl
      have hglen : copies.length = (copies.map Server.ip).length := by simp
      have hget : (copies.map Server.ip).get ⟨i, by omega⟩
          = (copies.map Server.ip).get ⟨k, by omega⟩ := by
        rw [List.get_map, List.get_map]
        rw [← List.getD_eq_get copies default hi,
          ← List.getD_eq_get copies default hk]
        rw [hip, hkp]
      have := (List.Nodup.get_inj_iff hnd).mp hget
      have : i = k := by
        simpa using congrArg Fin.val this
      rw [this]

/-- Reading an index-level filter-and-map over a list back at the record
level: filtering the positions whose record satisfies P and mapping a
record-level function over them is filtering and mapping the list itself. -/
theorem range_filter_map {α β : Type} (d : α) (P : α → Bool) (g : α → β) :
    ∀ (l : List α),
      ((List.range l.length).filter (fun j => P (l.getD j d))).map
        (fun j => g (l.getD j d))
      = (l.filter P).map g := by
  intro l
  induction l with
  | nil => simp
  | cons a rest ih =>
    simp only [List.getD_eq_getElem?_getD] at ih ⊢
    have hcomp : (fun j => P ((a :: rest)[j]?.getD d)) ∘ Nat.succ
        = (fun j => P (rest[j]?.getD d)) := by
      funext j
      simp [Function.comp]
    have hcomp2 : (fun j => g ((a :: rest)[j]?.getD d)) ∘ Nat.succ
        = (fun j => g (rest[j]?.getD d)) := by
      funext j
      simp [Function.comp]
    rw [List.length_cons, List.range_succ_eq_map, List.filter_cons]
    by_cases hP : P a
    · rw [if_pos (by simpa using hP)]
      rw [List.map_cons, List.filter_map, List.map_map, hcomp, hcomp2, ih]
      rw [List.filter_cons, if_pos (by simpa using hP), List.map_cons]
      congr 1
      simp
    · rw [if_neg (by simpa using hP)]
      rw [List.filter_map, List.map_map, hcomp, hcomp2, ih]
      rw [List.filter_cons, if_neg (by simpa using hP)]

/-- Root test of the canonical flat model: an empty parent_ip. -/
def isRoot (s : Server) : Bool := s.parent_ip == ""

/-- Test for being a child of a given root: a nonempty parent_ip equal to
the root's ip. -/
def kidsPred (r : Server) (c : Server) : Bool :=
  c.parent_ip != "" && c.parent_ip == r.ip

/-- Materialization of a child under the round-trip hypotheses: the copy,
marked child, with no children of its own. -/
def leafOf (c : Server) : Server :=
  (clearChildren c).setType ServerType.child

/-- Materialization of a root under the round-trip hypotheses: the copy
carrying its children as child-typed leaves, in input order. -/
def rootNF (servers : List Server) (r : Server) : Server :=
  (clearChildren r).setChildren ((servers.filter (kidsPred r)).map leafOf)

/-- Normal form of buildTree under the round-trip hypotheses: the roots in
input order, each carrying its children. -/
def buildNF (servers : List Server) : List Server :=
  (servers.filter isRoot).map (rootNF servers)

/-- Hypotheses of the round-trip claim on a flat list: unique ips, every
nonempty parent_ip references an existing server, depth at most one (a
server with a parent is referenced by nobody), and no self-parenting. -/
structure GoodFlat (servers : List Server) : Prop where
  nodupIps : (servers.map Server.ip).Nodup
  resolves : ∀ s ∈ servers, s.parent_ip ≠ "" →
    ∃ p ∈ servers, p.ip = s.parent_ip
  depth1 : ∀ s ∈ servers, s.parent_ip ≠ "" →
    ∀ t ∈ servers, t.parent_ip ≠ s.ip
  noSelf : ∀ s ∈ servers, s.parent_ip ≠ s.ip

/-- Element at an in-range position belongs to the list. -/
theorem getD_mem {α : Type} (l : List α) (j : Nat) (d : α)
    (h : j < l.length) : l.getD j d ∈ l := by
  rw [List.getD_eq_get l d h]
  exact List.get_mem l j h

/-- Positionwise description of the copy pass. -/
theorem copies_getD (servers : List Server) (j : Nat)
    (h : j < servers.length) :
    (servers.map clearChildren).getD j default
      = clearChildren (servers.getD j default) := by
  have h2 : j < (servers.map clearChildren).length := by simpa using h
  rw [List.getD_eq_get _ default h2, List.getD_eq_get _ default h,
    List.get_map]

/-- The copy pass preserves the ip sequence. -/
theorem copies_map_ip (servers : List Server) :
    (servers.map clearChildren).map Server.ip = servers.map Server.ip := by
  rw [List.map_map]
  exact List.map_congr_left (fun s _ => ip_clearChildren s)

/-- Under unique ips, the children indices accumulated for position i are
exactly the positions whose record is a child of the record at i. -/
theorem childIdxs_eq (servers : List Server)
    (hnd : (servers.map Server.ip).Nodup) (i : Nat)
    (hi : i < servers.length) :
    childIdxs (servers.map clearChildren) i
      = (List.range servers.length).filter
          (fun j => kidsPred (servers.getD i default)
            (servers.getD j default)) := by
  have hlen : (servers.map clearChildren).length = servers.length := by simp
  rw [childIdxs, hlen]
  apply List.filter_congr
  intro j hj
  have hjlt : j < servers.length := by simpa using List.mem_range.mp hj
  rw [copies_getD servers j hjlt]
  have hndc : ((servers.map clearChildren).map Server.ip).Nodup := by
    rw [copies_map_ip]; exact hnd
  by_cases hp : (servers.getD j default).parent_ip = ""
  · simp [-List.getD_eq_getElem?_getD, kidsPred, parent_ip_clearChildren, hp]
  · simp only [kidsPred, parent_ip_clearChildren]
    have hiff := lastIdxWithIp_eq_some_iff (servers.map clearChildren) hndc
      (servers.getD j default).parent_ip i
    rw [hlen] at hiff
    by_cases hres : lastIdxWithIp (servers.map clearChildren)
        (servers.getD j default).parent_ip = some i
    · obtain ⟨_, hipi⟩ := hiff.mp hres
      rw [copies_getD servers i hi, ip_clearChildren] at hipi
      simp [-List.getD_eq_getElem?_getD, hres, hp, hipi]
    · have hne : (servers.getD j default).parent_ip
          ≠ (servers.getD i default).ip := by
        intro heq
        apply hres
        apply hiff.mpr
        refine ⟨hi, ?_⟩
        rw [copies_getD servers i hi, ip_clearChildren]
        exact heq.symm
      simp [-List.getD_eq_getElem?_getD, hres, hp,
        beq_eq_false_iff_ne.mpr hne]

/-- Under the claim hypotheses, a position holding a child of a child never
receives children: depth at most one makes the accumulated list empty. -/
theorem childIdxs_child_nil (servers : List Server) (hg : GoodFlat servers)
    (j : Nat) (hj : j < servers.length)
    (hp : (servers.getD j default).parent_ip ≠ "") :
    childIdxs (servers.map clearChildren) j = [] := by
  rw [childIdxs_eq servers hg.nodupIps j hj]
  apply List.filter_eq_nil.mpr
  intro t ht
  have htlt : t < servers.length := by simpa using List.mem_range.mp ht
  simp only [kidsPred, Bool.and_eq_true, bne_iff_ne, ne_eq, beq_iff_eq,
    not_and]
  intro _
  exact hg.depth1 (servers.getD j default)
    (getD_mem servers j default hj) hp (servers.getD t default)
    (getD_mem servers t default htlt)

/-- Under the claim hypotheses the roots are exactly the positions with an
empty parent_ip (nothing dangles, so the self-heal branch is never
taken). -/
theorem rootIdxs_eq (servers : List Server) (hg : GoodFlat servers) :
    rootIdxs (servers.map clearChildren)
      = (List.range servers.length).filter
          (fun j => isRoot (servers.getD j default)) := by
  have hlen : (servers.map clearChildren).length = servers.length := by simp
  rw [rootIdxs, hlen]
  apply List.filter_congr
  intro j hj
  have hjlt : j < servers.length := by simpa using List.mem_range.mp hj
  rw [copies_getD servers j hjlt, parent_ip_clearChildren]
  by_cases hp : (servers.getD j default).parent_ip = ""
  · simp [-List.getD_eq_getElem?_getD, isRoot, hp]
  · obtain ⟨p, hpmem, hpip⟩ := hg.resolves (servers.getD j default)
      (getD_mem servers j default hjlt) hp
    have hsome : lastIdxWithIp (servers.map clearChildren)
        (servers.getD j default).parent_ip ≠ none := by
      rw [Ne, lastIdxWithIp_none]
      push_neg
      exact ⟨clearChildren p, List.mem_map_of_mem clearChildren hpmem,
        by rw [ip_clearChildren]; exact hpip⟩
    cases hres : lastIdxWithIp (servers.map clearChildren)
        (servers.getD j default).parent_ip with
    | none => exact absurd hres hsome
    | some k => simp [-List.getD_eq_getElem?_getD, isRoot, hp, hres]

/-- Reattaching an empty children array to a record that already has none
changes nothing. -/
theorem leaf_assemble (c : Server) :
    ((clearChildren c).setType ServerType.child).setChildren [] = leafOf c := by
  cases c
  rfl

/-- Under the claim hypotheses a child position materializes as a leaf:
its parent resolves, so it is marked child, and depth at most one leaves it
without children. -/
theorem buildNode_child (servers : List Server) (hg : GoodFlat servers)
    (j : Nat) (hj : j < servers.length)
    (hp : (servers.getD j default).parent_ip ≠ "") (m : Nat) :
    buildNode (servers.map clearChildren) (m + 1) j
      = leafOf (servers.getD j default) := by
  rw [buildNode]
  rw [copies_getD servers j hj, parent_ip_clearChildren,
    childIdxs_child_nil servers hg j hj hp, List.map_nil]
  rw [if_pos hp]
  have hsome : (lastIdxWithIp (servers.map clearChildren)
      (servers.getD j default).parent_ip).isSome = true := by
    obtain ⟨p, hpmem, hpip⟩ := hg.resolves (servers.getD j default)
      (getD_mem servers j default hj) hp
    rw [Option.isSome_iff_ne_none, Ne, lastIdxWithIp_none]
    push_neg
    exact ⟨clearChildren p, List.mem_map_of_mem clearChildren hpmem,
      by rw [ip_clearChildren]; exact hpip⟩
  rw [if_pos hsome]
  exact leaf_assemble (servers.getD j default)

/-- Under the claim hypotheses a root position materializes as the root
normal form: its accumulated children are exactly its child records, each a
leaf. -/
theorem buildNode_root (servers : List Server) (hg : GoodFlat servers)
    (i : Nat) (hi : i < servers.length)
    (hp : (servers.getD i default).parent_ip = "") (m : Nat) (hm : 1 ≤ m) :
    buildNode (servers.map clearChildren) (m + 1) i
      = rootNF servers (servers.getD i default) := by
  obtain ⟨m2, rfl⟩ : ∃ m2, m = m2 + 1 := ⟨m - 1, by omega⟩
  rw [buildNode]
  rw [copies_getD servers i hi, parent_ip_clearChildren]
  rw [if_neg (fun h => h hp)]
  rw [childIdxs_eq servers hg.nodupIps i hi]
  have hptw : ∀ j ∈ (List.range servers.length).filter
      (fun j => kidsPred (servers.getD i default) (servers.getD j default)),
      buildNode (servers.map clearChildren) (m2 + 1) j
        = leafOf (servers.getD j default) := by
    intro j hjmem
    have hjr := List.mem_filter.mp hjmem
    have hjlt : j < servers.length := by simpa using List.mem_range.mp hjr.1
    have hkp := hjr.2
    simp only [kidsPred, Bool.and_eq_true, bne_iff_ne, ne_eq] at hkp
    exact buildNode_child servers hg j hjlt hkp.1 m2
  rw [List.map_congr_left hptw]
  rw [range_filter_map default (kidsPred (servers.getD i default)) leafOf
    servers]
  rfl

/-- Structure of buildTree under the claim hypotheses: the normal form with
roots in order, each carrying its child leaves. -/
theorem buildTree_eq_NF (servers : List Server) (hg : GoodFlat servers) :
    buildTree servers = buildNF servers := by
  rw [buildTree]
  have hlen : (servers.map clearChildren).length = servers.length := by simp
  rw [hlen, rootIdxs_eq servers hg]
  have hptw : ∀ i ∈ (List.range servers.length).filter
      (fun j => isRoot (servers.getD j default)),
      buildNode (servers.map clearChildren) (servers.length + 1) i
        = rootNF servers (servers.getD i default) := by
    intro i himem
    have hir := List.mem_filter.mp himem
    have hilt : i < servers.length := by simpa using List.mem_range.mp hir.1
    have hroot := hir.2
    simp only [isRoot, beq_iff_eq] at hroot
    exact buildNode_root servers hg i hilt hroot servers.length (by omega)
  rw [List.map_congr_left hptw]
  rw [range_filter_map default isRoot (rootNF servers) servers]
  rfl

mutual

/-- Node labels (ips) of one subtree, in pre-order. -/
def nodeIps : Server → List String
  | .mk a _ _ _ _ _ _ _ _ _ children => a :: nodeIpsList children
termination_by s => sizeOf s

/-- Node labels (ips) of a forest, in pre-order. -/
def nodeIpsList : List Server → List String
  | [] => []
  | s :: rest => nodeIps s ++ nodeIpsList rest
termination_by l => sizeOf l

end

mutual

/-- Parent/child edges of one subtree, as (parent ip, child ip) pairs. -/
def edgesOf : Server → List (String × String)
  | .mk a _ _ _ _ _ _ _ _ _ children =>
    children.map (fun c => (a, c.ip)) ++ edgesList children
termination_by s => sizeOf s

/-- Parent/child edges of a forest. -/
def edgesList : List Server → List (String × String)
  | [] => []
  | s :: rest => edgesOf s ++ edgesList rest
termination_by l => sizeOf l

end

/-- Skeleton of a flat list: for every root in order, its ip together with
the ips of its children in order.  The two observers of buildNF factor
through it. -/
def skeleton (X : List Server) : List (String × List String) :=
  (X.filter isRoot).map
    (fun r => (r.ip, (X.filter (kidsPred r)).map Server.ip))

theorem ip_leafOf (c : Server) : (leafOf c).ip = c.ip := by cases c; rfl

theorem children_leafOf (c : Server) : (leafOf c).children = [] := by
  cases c; rfl

theorem ip_rootNF (servers : List Server) (r : Server) :
    (rootNF servers r).ip = r.ip := by cases r; rfl

theorem children_rootNF (servers : List Server) (r : Server) :
    (rootNF servers r).children
      = (servers.filter (kidsPred r)).map leafOf := by
  cases r; rfl

/-- Node labels of a list of leaves. -/
theorem nodeIpsList_leaves : ∀ (cs : List Server),
    (∀ c ∈ cs, c.children = []) →
    nodeIpsList cs = cs.map Server.ip := by
  intro cs
  induction cs with
  | nil => intro _; simp [nodeIpsList]
  | cons c rest ih =>
    intro h
    rw [nodeIpsList, ih (fun t ht => h t (List.mem_cons_of_mem c ht))]
    cases hc : c with
    | mk a b1 b2 b3 b4 b5 b6 b7 b8 b9 children =>
      have : children = [] := by
        have := h c (List.mem_cons_self c rest)
        rw [hc] at this
        simpa [Server.children] using this
      subst this
      simp [nodeIps, nodeIpsList, Server.ip]

/-- Edges of a list of leaves: none. -/
theorem edgesList_leaves : ∀ (cs : List Server),
    (∀ c ∈ cs, c.children = []) → edgesList cs = [] := by
  intro cs
  induction cs with
  | nil => intro _; simp [edgesList]
  | cons c rest ih =>
    intro h
    rw [edgesList, ih (fun t ht => h t (List.mem_cons_of_mem c ht))]
    cases hc : c with
    | mk a b1 b2 b3 b4 b5 b6 b7 b8 b9 children =>
      have : children = [] := by
        have := h c (List.mem_cons_self c rest)
        rw [hc] at this
        simpa [Server.children] using this
      subst this
      simp [edgesOf, edgesList]

/-- Node labels of a buildNF forest, read off the skeleton. -/
theorem nodeIpsList_NF (X : List Server) :
    nodeIpsList (buildNF X)
      = (skeleton X).flatMap (fun rk => rk.1 :: rk.2) := by
  rw [buildNF, skeleton]
  induction X.filter isRoot with
  | nil => simp [nodeIpsList]
  | cons r rest ih =>
    rw [List.map_cons, List.map_cons, nodeIpsList, ih, List.flatMap_cons]
    congr 1
    cases r with
    | mk a b1 b2 b3 b4 b5 b6 b7 b8 b9 children =>
      simp only [rootNF, clearChildren, Server.setChildren]
      rw [nodeIps]
      rw [nodeIpsList_leaves _ (fun c hc => by
        obtain ⟨c0, _, rfl⟩ := List.mem_map.mp hc
        exact children_leafOf c0)]
      rw [List.map_map]
      simp only [Server.ip, List.cons.injEq]
      refine ⟨trivial, ?_⟩
      apply List.map_congr_left
      intro c _
      cases c
      rfl

/-- Edges of a buildNF forest, read off the skeleton. -/
theorem edgesList_NF (X : List Server) :
    edgesList (buildNF X)
      = (skeleton X).flatMap (fun rk => rk.2.map (fun c => (rk.1, c))) := by
  rw [buildNF, skeleton]
  induction X.filter isRoot with
  | nil => simp [edgesList]
  | cons r rest ih =>
    rw [List.map_cons, List.map_cons, edgesList, ih, List.flatMap_cons]
    congr 1
    cases r with
    | mk a b1 b2 b3 b4 b5 b6 b7 b8 b9 children =>
      simp only [rootNF, clearChildren, Server.setChildren]
      rw [edgesOf]
      rw [edgesList_leaves _ (fun c hc => by
        obtain ⟨c0, _, rfl⟩ := List.mem_map.mp hc
        exact children_leafOf c0)]
      rw [List.append_nil, List.map_map, List.map_map]
      apply List.map_congr_left
      intro c _
      cases c
      rfl

/-- Pre-order context sequence of a list of leaves: just the leaves paired
with the context. -/
theorem preorderCtxList_leaves : ∀ (cs : List Server) (ctx : String),
    (∀ c ∈ cs, c.children = []) →
    preorderCtxList cs ctx = cs.map (fun c => (c, ctx)) := by
  intro cs
  induction cs with
  | nil => intro ctx _; simp [preorderCtxList]
  | cons c rest ih =>
    intro ctx h
    rw [preorderCtxList, ih ctx (fun t ht => h t (List.mem_cons_of_mem c ht))]
    cases hc : c with
    | mk a b1 b2 b3 b4 b5 b6 b7 b8 b9 children =>
      have hch : children = [] := by
        have := h c (List.mem_cons_self c rest)
        rw [hc] at this
        simpa [Server.children] using this
      subst hch
      rw [preorderCtx]
      simp [preorderCtxList]

/-- Pre-order context sequence of a buildNF forest: every root with empty
context followed by its leaves with the root's ip as context. -/
theorem preorderCtxList_NF (X : List Server) :
    preorderCtxList (buildNF X) ""
      = (X.filter isRoot).flatMap (fun r =>
          (rootNF X r, "") :: (X.filter (kidsPred r)).map
            (fun c => (leafOf c, r.ip))) := by
  rw [buildNF]
  induction X.filter isRoot with
  | nil => simp [preorderCtxList]
  | cons r rest ih =>
    rw [List.map_cons, preorderCtxList, ih, List.flatMap_cons]
    congr 1
    cases r with
    | mk a b1 b2 b3 b4 b5 b6 b7 b8 b9 children =>
      simp only [rootNF, clearChildren, Server.setChildren]
      rw [preorderCtx]
      rw [preorderCtxList_leaves _ _ (fun c hc => by
        obtain ⟨c0, _, rfl⟩ := List.mem_map.mp hc
        exact children_leafOf c0)]
      rw [List.map_map]
      simp only [Server.ip, List.cons.injEq]
      refine ⟨trivial, ?_⟩
      apply List.map_congr_left
      intro c _
      rfl

/-- View of a record keeping only its ip and parent_ip; buildTree and the
isomorphism observers factor through it. -/
def ipPar (s : Server) : String × String := (s.ip, s.parent_ip)

theorem ipPar_stampVisit (k : Nat) (v : Server × String) :
    ipPar (stampVisit k v) = (v.1.ip, v.2) := by
  obtain ⟨s, ctx⟩ := v
  cases s
  rfl

/-- Mapping a function of the element over an enumeration forgets the
indices. -/
theorem enum_map_snd_comp {α β : Type} (l : List α) (g : α → β) :
    l.enum.map (fun kv => g kv.2) = l.map g := by
  conv_rhs => rw [← List.enum_map_snd l]
  rw [List.map_map]
  rfl

/-- The ip and parent_ip sequence of a flattened forest: node ip paired
with traversal context, in pre-order. -/
theorem view_specFlatten (tree : List Server) :
    (specFlatten tree).map ipPar
      = (preorderCtxList tree "").map (fun v => (v.1.ip, v.2)) := by
  rw [specFlatten, List.map_map]
  have hpt : ∀ kv ∈ (preorderCtxList tree "").enum,
      (ipPar ∘ fun kv => stampVisit kv.1 kv.2) kv
        = (fun kv : Nat × (Server × String) => (kv.2.1.ip, kv.2.2)) kv := by
    intro kv _
    exact ipPar_stampVisit kv.1 kv.2
  rw [List.map_congr_left hpt]
  exact enum_map_snd_comp (preorderCtxList tree "")
    (fun v => (v.1.ip, v.2))

/-- Priorities of a flattened forest form the sequence 10, 20, ... in
pre-order position. -/
theorem priorities_specFlatten (tree : List Server) :
    (specFlatten tree).map Server.priority
      = (List.range (specFlatten tree).length).map
          (fun k : Nat => some (((k : Int) + 1) * 10)) := by
  rw [specFlatten, List.map_map]
  have hpt : ∀ kv ∈ (preorderCtxList tree "").enum,
      (Server.priority ∘ fun kv => stampVisit kv.1 kv.2) kv
        = (fun kv : Nat × (Server × String) =>
            some (((kv.1 : Int) + 1) * 10)) kv := by
    intro kv _
    obtain ⟨k, s, ctx⟩ := kv
    cases s
    rfl
  rw [List.map_congr_left hpt]
  have h2 : (preorderCtxList tree "").enum.map
      (fun kv : Nat × (Server × String) => some (((kv.1 : Int) + 1) * 10))
      = ((preorderCtxList tree "").enum.map Prod.fst).map
          (fun k : Nat => some (((k : Int) + 1) * 10)) := by
    rw [List.map_map]
    rfl
  rw [h2, List.enum_map_fst]
  congr 1
  simp

/-- Composition of flatMap with map. -/
theorem flatMap_map_comp {α β γ : Type} (l : List α) (f : α → β)
    (g : β → List γ) :
    (l.map f).flatMap g = l.flatMap (fun x => g (f x)) := by
  simp [List.flatMap_def, List.map_map, Function.comp_def]

/-- Grouping a list by a duplicate-free key list that covers every element:
the list is a permutation of the concatenation of its per-key filters. -/
theorem perm_flatMap_groups (key : Server → String) :
    ∀ (keys : List String), keys.Nodup →
    ∀ (l : List Server), (∀ c ∈ l, key c ∈ keys) →
      List.Perm l
        (keys.flatMap (fun k => l.filter (fun c => key c == k))) := by
  intro keys
  induction keys with
  | nil =>
    intro _ l hcov
    have hl : l = [] := List.eq_nil_iff_forall_not_mem.mpr
      (fun c hc => by simpa using hcov c hc)
    subst hl
    simp
  | cons k keys ih =>
    intro hnd l hcov
    rw [List.flatMap_cons]
    have h1 : List.Perm l (l.filter (fun c => key c == k)
        ++ l.filter (fun c => !(key c == k))) :=
      (List.filter_append_perm (fun c => key c == k) l).symm
    refine h1.trans (List.Perm.append_left _ ?_)
    have hcov2 : ∀ c ∈ l.filter (fun c => !(key c == k)), key c ∈ keys := by
      intro c hc
      have hm := List.mem_filter.mp hc
      rcases List.mem_cons.mp (hcov c hm.1) with h | h
      · exfalso
        have := hm.2
        simp [h] at this
      · exact h
    refine (ih (List.Nodup.of_cons hnd) _ hcov2).trans ?_
    apply List.Perm.of_eq
    apply List.flatMap_congr
    intro k2 hk2
    rw [List.filter_filter]
    apply List.filter_congr
    intro c _
    have hne : k2 ≠ k := by
      rintro rfl
      exact (List.nodup_cons.mp hnd).1 hk2
    by_cases h : key c = k2
    · simp [h, hne]
    · simp [h]

/-- Interleaving heads and tails: the flatMap of cons blocks is a
permutation of the heads followed by the concatenated tails. -/
theorem perm_flatMap_cons_blocks {α β : Type} (f : α → β) (g : α → List β) :
    ∀ (l : List α),
      List.Perm (l.flatMap (fun x => f x :: g x))
        (l.map f ++ l.flatMap g) := by
  intro l
  induction l with
  | nil => simp
  | cons a l ih =>
    rw [List.flatMap_cons, List.map_cons, List.flatMap_cons]
    simp only [List.cons_append]
    refine List.Perm.cons (f a) ?_
    refine (List.Perm.append_left (g a) ih).trans ?_
    rw [← List.append_assoc, ← List.append_assoc]
    exact List.Perm.append_right _ List.perm_append_comm

/-- Extraction of the unique key-matching block of a flatMap. -/
theorem flatMap_single {α β : Type} (f : α → List β) (key : α → String) :
    ∀ (l : List α), (l.map key).Nodup → ∀ r ∈ l,
      l.flatMap (fun x => if key x = key r then f x else []) = f r := by
  intro l
  induction l with
  | nil => intro _ r hr; simp at hr
  | cons a l ih =>
    intro hnd r hr
    rw [List.flatMap_cons]
    have hnd2 : (l.map key).Nodup := by
      rw [List.map_cons] at hnd
      exact List.Nodup.of_cons hnd
    by_cases hk : key a = key r
    · have hra : r = a := by
        rcases List.mem_cons.mp hr with h | h
        · exact h
        · exfalso
          have : key r ∈ l.map key := List.mem_map_of_mem key h
          rw [List.map_cons] at hnd
          exact (List.nodup_cons.mp hnd).1 (hk ▸ this)
      subst hra
      rw [if_pos hk]
      have htail : l.flatMap (fun x => if key x = key r then f x else [])
          = [] := by
        have : ∀ x ∈ l, (if key x = key r then f x else []) = [] := by
          intro x hx
          rw [if_neg]
          intro hxr
          have : key x ∈ l.map key := List.mem_map_of_mem key hx
          rw [List.map_cons] at hnd
          exact (List.nodup_cons.mp hnd).1 (hxr.trans hk.symm ▸ this)
        rw [List.flatMap_congr this]
        simp
      rw [htail, List.append_nil]
    · have hrl : r ∈ l := by
        rcases List.mem_cons.mp hr with h | h
        · exact absurd (h ▸ rfl) hk
        · exact h
      rw [if_neg hk, List.nil_append]
      exact ih hnd2 r hrl

/-- The ip and parent_ip view of the flattened normal form: every root ip
with empty parent followed by its child ips pointing at it. -/
theorem viewF_eq (servers : List Server) :
    (specFlatten (buildNF servers)).map ipPar
      = (servers.filter isRoot).flatMap (fun r =>
          (r.ip, "") :: (servers.filter (kidsPred r)).map
            (fun c => (c.ip, r.ip))) := by
  rw [view_specFlatten, preorderCtxList_NF, List.map_flatMap]
  apply List.flatMap_congr
  intro r _
  rw [List.map_cons]
  congr 1
  · rw [ip_rootNF]
  · rw [List.map_map]
    apply List.map_congr_left
    intro c _
    cases c
    rfl

/-- The same view, read as the view of the original records reordered into
pre-order (each root followed by its children). -/
theorem viewF_as_map (servers : List Server) :
    (servers.filter isRoot).flatMap (fun r =>
        (r.ip, "") :: (servers.filter (kidsPred r)).map
          (fun c => (c.ip, r.ip)))
      = ((servers.filter isRoot).flatMap (fun r =>
          r :: servers.filter (kidsPred r))).map ipPar := by
  rw [List.map_flatMap]
  apply List.flatMap_congr
  intro r hr
  rw [List.map_cons]
  congr 1
  · have hroot : r.parent_ip = "" := by
      have := (List.mem_filter.mp hr).2
      simpa [isRoot] using this
    simp [ipPar, hroot]
  · apply List.map_congr_left
    intro c hc
    have hkc := (List.mem_filter.mp hc).2
    simp only [kidsPred, Bool.and_eq_true, bne_iff_ne, ne_eq,
      beq_iff_eq] at hkc
    simp [ipPar, hkc.2]

/-- Every root of a good flat list has a nonempty ip (its parent_ip is
empty and differs from its ip). -/
theorem root_ip_ne (servers : List Server) (hg : GoodFlat servers) :
    ∀ r ∈ servers.filter isRoot, r.ip ≠ "" := by
  intro r hr
  have hmem := (List.mem_filter.mp hr).1
  have hroot : r.parent_ip = "" := by
    have := (List.mem_filter.mp hr).2
    simpa [isRoot] using this
  have := hg.noSelf r hmem
  rw [hroot] at this
  exact fun h => this h.symm

/-- The root ips of a good flat list are duplicate-free. -/
theorem roots_nodup (servers : List Server) (hg : GoodFlat servers) :
    ((servers.filter isRoot).map Server.ip).Nodup :=
  List.Nodup.sublist (List.Sublist.map Server.ip
    (List.filter_sublist servers)) hg.nodupIps

/-- The stored parent_ip of every non-root in a good flat list is the ip of
some root. -/
theorem nonroot_parent_is_root_ip (servers : List Server)
    (hg : GoodFlat servers) :
    ∀ c ∈ servers.filter (fun s => !(isRoot s)),
      c.parent_ip ∈ (servers.filter isRoot).map Server.ip := by
  intro c hc
  have hcm := (List.mem_filter.mp hc).1
  have hcp : c.parent_ip ≠ "" := by
    have := (List.mem_filter.mp hc).2
    simpa [isRoot] using this
  obtain ⟨p, hpmem, hpip⟩ := hg.resolves c hcm hcp
  have hproot : p.parent_ip = "" := by
    by_contra hpp
    exact hg.depth1 p hpmem hpp c hcm (hpip ▸ rfl)
  have : p ∈ servers.filter isRoot := by
    rw [List.mem_filter]
    exact ⟨hpmem, by simp [isRoot, hproot]⟩
  rw [← hpip]
  exact List.mem_map_of_mem Server.ip this

/-- The pre-order reordering of a good flat list is a permutation of it. -/
theorem perm_interleaved (servers : List Server) (hg : GoodFlat servers) :
    List.Perm ((servers.filter isRoot).flatMap (fun r =>
        r :: servers.filter (kidsPred r))) servers := by
  refine (perm_flatMap_cons_blocks id
    (fun r => servers.filter (kidsPred r)) (servers.filter isRoot)).trans ?_
  rw [List.map_id]
  have hkids : ∀ r : Server, servers.filter (kidsPred r)
      = (servers.filter (fun s => !(isRoot s))).filter
          (fun c => c.parent_ip == r.ip) := by
    intro r
    rw [List.filter_filter]
    apply List.filter_congr
    intro c _
    simp only [kidsPred, isRoot]
    rw [Bool.and_comm]
    rfl
  have hgroup := perm_flatMap_groups Server.parent_ip
    ((servers.filter isRoot).map Server.ip) (roots_nodup servers hg)
    (servers.filter (fun s => !(isRoot s)))
    (nonroot_parent_is_root_ip servers hg)
  rw [flatMap_map_comp] at hgroup
  have hstep : (servers.filter isRoot).flatMap
      (fun r => servers.filter (kidsPred r))
      = (servers.filter isRoot).flatMap (fun r =>
          (servers.filter (fun s => !(isRoot s))).filter
            (fun c => c.parent_ip == r.ip)) :=
    List.flatMap_congr (fun r _ => hkids r)
  rw [hstep]
  refine (List.Perm.append_left _ hgroup.symm).trans ?_
  exact List.filter_append_perm isRoot servers

/-- The view of the flattened normal form is a permutation of the view of
the original list. -/
theorem F_view_perm (servers : List Server) (hg : GoodFlat servers) :
    List.Perm ((specFlatten (buildNF servers)).map ipPar)
      (servers.map ipPar) := by
  rw [viewF_eq servers, viewF_as_map servers]
  exact List.Perm.map ipPar (perm_interleaved servers hg)

/-- The ip sequence is the first component of the view. -/
theorem map_ip_eq_view_fst (X : List Server) :
    X.map Server.ip = (X.map ipPar).map Prod.fst := by
  rw [List.map_map]
  rfl

/-- The flattened normal form of a good flat list is itself a good flat
list: same ips up to order, resolving parents, depth one, no
self-parenting. -/
theorem F_goodFlat (servers : List Server) (hg : GoodFlat servers) :
    GoodFlat (specFlatten (buildNF servers)) := by
  have hperm := F_view_perm servers hg
  constructor
  · rw [map_ip_eq_view_fst]
    have h2 : (servers.map ipPar).map Prod.fst = servers.map Server.ip :=
      (map_ip_eq_view_fst servers).symm
    have := (List.Perm.map Prod.fst hperm.symm)
    rw [h2] at this
    exact this.nodup hg.nodupIps
  · intro s hs hp
    have hsv : ipPar s ∈ servers.map ipPar :=
      hperm.mem_iff.mp (List.mem_map_of_mem ipPar hs)
    obtain ⟨t, ht, hts⟩ := List.mem_map.mp hsv
    have htp : t.parent_ip = s.parent_ip := congrArg Prod.snd hts
    obtain ⟨p, hpmem, hpip⟩ := hg.resolves t ht (htp ▸ hp)
    have hpv : ipPar p ∈ (specFlatten (buildNF servers)).map ipPar :=
      hperm.mem_iff.mpr (List.mem_map_of_mem ipPar hpmem)
    obtain ⟨f, hf, hfp⟩ := List.mem_map.mp hpv
    refine ⟨f, hf, ?_⟩
    have hfip : f.ip = p.ip := congrArg Prod.fst hfp
    rw [hfip, hpip, htp]
  · intro s hs hp t ht
    have hsv : ipPar s ∈ servers.map ipPar :=
      hperm.mem_iff.mp (List.mem_map_of_mem ipPar hs)
    obtain ⟨s2, hs2, hs2e⟩ := List.mem_map.mp hsv
    have htv : ipPar t ∈ servers.map ipPar :=
      hperm.mem_iff.mp (List.mem_map_of_mem ipPar ht)
    obtain ⟨t2, ht2, ht2e⟩ := List.mem_map.mp htv
    have hs2p : s2.parent_ip = s.parent_ip := congrArg Prod.snd hs2e
    have hs2i : s2.ip = s.ip := congrArg Prod.fst hs2e
    have ht2p : t2.parent_ip = t.parent_ip := congrArg Prod.snd ht2e
    have := hg.depth1 s2 hs2 (hs2p ▸ hp) t2 ht2
    rw [hs2i, ht2p] at this
    exact this
  · intro s hs
    have hsv : ipPar s ∈ servers.map ipPar :=
      hperm.mem_iff.mp (List.mem_map_of_mem ipPar hs)
    obtain ⟨s2, hs2, hs2e⟩ := List.mem_map.mp hsv
    have hs2p : s2.parent_ip = s.parent_ip := congrArg Prod.snd hs2e
    have hs2i : s2.ip = s.ip := congrArg Prod.fst hs2e
    have := hg.noSelf s2 hs2
    rw [hs2p, hs2i] at this
    exact this

/-- Skeleton computed from the view alone. -/
def skeletonV (V : List (String × String)) : List (String × List String) :=
  (V.filter (fun q => q.2 == "")).map
    (fun q => (q.1,
      (V.filter (fun c => c.2 != "" && c.2 == q.1)).map Prod.fst))

/-- The skeleton factors through the view. -/
theorem skeletonV_map_ipPar (X : List Server) :
    skeletonV (X.map ipPar) = skeleton X := by
  rw [skeletonV, skeleton, List.filter_map, List.map_map]
  have hf : X.filter ((fun q : String × String => q.2 == "") ∘ ipPar)
      = X.filter isRoot :=
    List.filter_congr (fun s _ => rfl)
  rw [hf]
  apply List.map_congr_left
  intro r _
  simp only [Function.comp_apply]
  congr 1
  have h1 : (X.map ipPar).filter
      (fun c => c.2 != "" && c.2 == (ipPar r).1)
      = (X.filter (kidsPred r)).map ipPar := by
    rw [List.filter_map]
    congr 1
  rw [h1, List.map_map]
  apply List.map_congr_left
  intro c _
  rfl

/-- A flatMap of singletons is a map. -/
theorem flatMap_singleton_map {α β : Type} (l : List α) (f : α → β) :
    l.flatMap (fun x => [f x]) = l.map f := by
  induction l with
  | nil => rfl
  | cons a l ih => rw [List.flatMap_cons, List.map_cons, ih]; rfl

/-- Roots of the flattened-normal-form view: one empty-parent pair per root
of the original list, in order. -/
theorem outer_filter_F (servers : List Server) (hg : GoodFlat servers) :
    ((servers.filter isRoot).flatMap (fun r =>
        (r.ip, "") :: (servers.filter (kidsPred r)).map
          (fun c => (c.ip, r.ip)))).filter
      (fun q : String × String => q.2 == "")
      = (servers.filter isRoot).map (fun r => (r.ip, "")) := by
  rw [List.filter_flatMap]
  have hpt : ∀ r ∈ servers.filter isRoot,
      (((r.ip, "") :: (servers.filter (kidsPred r)).map
          (fun c => (c.ip, r.ip))).filter
        (fun q : String × String => q.2 == ""))
        = [(r.ip, "")] := by
    intro r hr
    have htail : (((servers.filter (kidsPred r)).map
        (fun c => (c.ip, r.ip))).filter
        (fun q : String × String => q.2 == "")) = [] := by
      rw [List.filter_map]
      have hcong : ∀ c ∈ servers.filter (kidsPred r),
          ((fun q : String × String => q.2 == "") ∘
            (fun c : Server => (c.ip, r.ip))) c
            = (fun _ : Server => false) c := by
        intro c _
        simp only [Function.comp_apply]
        exact beq_eq_false_iff_ne.mpr (root_ip_ne servers hg r hr)
      rw [List.filter_congr hcong, List.filter_false, List.map_nil]
    rw [List.filter_cons, if_pos (beq_self_eq_true ""), htail]
  rw [List.flatMap_congr hpt]
  exact flatMap_singleton_map _ _

/-- Roots of the original view: the same empty-parent pairs. -/
theorem outer_filter_S (servers : List Server) :
    (servers.map ipPar).filter (fun q : String × String => q.2 == "")
      = (servers.filter isRoot).map (fun r => (r.ip, "")) := by
  rw [List.filter_map]
  have hf : servers.filter
      ((fun q : String × String => q.2 == "") ∘ ipPar)
      = servers.filter isRoot := List.filter_congr (fun s _ => rfl)
  rw [hf]
  apply List.map_congr_left
  intro r hr
  have hroot : r.parent_ip = "" := by
    have := (List.mem_filter.mp hr).2
    simpa [isRoot] using this
  simp [ipPar, hroot]

/-- Children of a given root read off the original view: the ips of the
servers whose parent_ip is that root's ip. -/
theorem inner_filter_S (servers : List Server) (r : Server) :
    (((servers.map ipPar).filter
        (fun c : String × String => c.2 != "" && c.2 == r.ip)).map
      Prod.fst)
      = (servers.filter (kidsPred r)).map Server.ip := by
  rw [List.filter_map]
  have hf : servers.filter
      ((fun c : String × String => c.2 != "" && c.2 == r.ip) ∘ ipPar)
      = servers.filter (kidsPred r) := List.filter_congr (fun s _ => rfl)
  rw [hf, List.map_map]
  rfl

/-- Children of a given root read off the flattened-normal-form view: the
same ips. -/
theorem inner_filter_F (servers : List Server) (hg : GoodFlat servers)
    (r : Server) (hr : r ∈ servers.filter isRoot) :
    ((((servers.filter isRoot).flatMap (fun r2 =>
        (r2.ip, "") :: (servers.filter (kidsPred r2)).map
          (fun c => (c.ip, r2.ip)))).filter
      (fun c : String × String => c.2 != "" && c.2 == r.ip)).map
      Prod.fst)
      = (servers.filter (kidsPred r)).map Server.ip := by
  rw [List.filter_flatMap]
  have hpt : ∀ r2 ∈ servers.filter isRoot,
      (((r2.ip, "") :: (servers.filter (kidsPred r2)).map
          (fun c => (c.ip, r2.ip))).filter
        (fun c : String × String => c.2 != "" && c.2 == r.ip))
        = if Server.ip r2 = Server.ip r
            then (servers.filter (kidsPred r2)).map
              (fun c => (c.ip, r2.ip))
            else [] := by
    intro r2 hr2
    rw [List.filter_cons, if_neg (by simp), List.filter_map]
    by_cases hk : r2.ip = r.ip
    · rw [if_pos hk]
      have hcong : ∀ c ∈ servers.filter (kidsPred r2),
          ((fun q : String × String => q.2 != "" && q.2 == r.ip) ∘
            (fun c : Server => (c.ip, r2.ip))) c
            = (fun _ : Server => true) c := by
        intro c _
        simp only [Function.comp_apply]
        have h1 : (r2.ip == "") = false :=
          beq_eq_false_iff_ne.mpr (root_ip_ne servers hg r2 hr2)
        have h2 : (r2.ip == r.ip) = true := beq_iff_eq.mpr hk
        show (!(r2.ip == "") && (r2.ip == r.ip)) = true
        rw [h1, h2]
        rfl
      rw [List.filter_congr hcong, List.filter_true]
    · rw [if_neg hk]
      have hcong : ∀ c ∈ servers.filter (kidsPred r2),
          ((fun q : String × String => q.2 != "" && q.2 == r.ip) ∘
            (fun c : Server => (c.ip, r2.ip))) c
            = (fun _ : Server => false) c := by
        intro c _
        simp only [Function.comp_apply]
        have h2 : (r2.ip == r.ip) = false := beq_eq_false_iff_ne.mpr hk
        show (!(r2.ip == "") && (r2.ip == r.ip)) = false
        rw [h2, Bool.and_false]
      rw [List.filter_congr hcong, List.filter_false, List.map_nil]
  rw [List.flatMap_congr hpt]
  rw [flatMap_single (fun r2 => (servers.filter (kidsPred r2)).map
      (fun c => (c.ip, r2.ip))) Server.ip (servers.filter isRoot)
      (roots_nodup servers hg) r hr]
  rw [List.map_map]
  rfl

/-- The flattened normal form of a good flat list has the same skeleton as
the list itself: the same roots in order, each with the same children in
order. -/
theorem skeleton_F (servers : List Server) (hg : GoodFlat servers) :
    skeleton (specFlatten (buildNF servers)) = skeleton servers := by
  rw [← skeletonV_map_ipPar (specFlatten (buildNF servers)),
      ← skeletonV_map_ipPar servers, viewF_eq]
  rw [skeletonV, skeletonV]
  rw [outer_filter_F servers hg, outer_filter_S servers]
  rw [List.map_map, List.map_map]
  apply List.map_congr_left
  intro r hr
  show (r.ip, (((servers.filter isRoot).flatMap (fun r2 =>
        (r2.ip, "") :: (servers.filter (kidsPred r2)).map
          (fun c => (c.ip, r2.ip)))).filter
      (fun c : String × String => c.2 != "" && c.2 == r.ip)).map
      Prod.fst)
      = (r.ip, (((servers.map ipPar).filter
        (fun c : String × String => c.2 != "" && c.2 == r.ip)).map
        Prod.fst))
  rw [inner_filter_F servers hg r hr, inner_filter_S servers r]

/-- Demo flat list for the round-trip claim: one hub with one satellite. -/
def demoC1 : List Server :=
  [Server.mk "hub.example" "" "" "" "" ServerType.parent "" "" false
      none [],
   Server.mk "s1.example" "" "" "" "" ServerType.child "hub.example" ""
      false none []]

/-- Claim C1: for every flat configuration with unique ips whose
parent_ip references resolve, nest at most one level deep and never
self-reference, rebuilding the tree from the flattened tree yields the same
node set (in the same pre-order) and the same parent/child edges as the
original tree, and the flatten step assigns the strictly increasing
priority sequence 10, 20, ... in pre-order position. -/
theorem C1_roundtrip_iso (servers : List Server)
    (h1 : (servers.map Server.ip).Nodup)
    (h2 : ∀ s ∈ servers, s.parent_ip ≠ "" →
      ∃ p ∈ servers, p.ip = s.parent_ip)
    (h3 : ∀ s ∈ servers, s.parent_ip ≠ "" →
      ∀ t ∈ servers, t.parent_ip ≠ s.ip)
    (h4 : ∀ s ∈ servers, s.parent_ip ≠ s.ip) :
    nodeIpsList (buildTree (flattenTreeAndSync (buildTree servers)))
      = nodeIpsList (buildTree servers)
    ∧ edgesList (buildTree (flattenTreeAndSync (buildTree servers)))
      = edgesList (buildTree servers)
    ∧ (flattenTreeAndSync (buildTree servers)).map Server.priority
      = (List.range (flattenTreeAndSync (buildTree servers)).length).map
          (fun k : Nat => some (((k : Int) + 1) * 10)) := by
  have hg : GoodFlat servers := ⟨h1, h2, h3, h4⟩
  have hflat : flattenTreeAndSync (buildTree servers)
      = specFlatten (buildNF servers) := by
    rw [buildTree_eq_NF servers hg, flattenTreeAndSync, specFlatten,
      flattenList_eq (buildNF servers) "" 0]
    rfl
  have hgF : GoodFlat (specFlatten (buildNF servers)) :=
    F_goodFlat servers hg
  have hT2 : buildTree (flattenTreeAndSync (buildTree servers))
      = buildNF (specFlatten (buildNF servers)) := by
    rw [hflat, buildTree_eq_NF _ hgF]
  refine ⟨?_, ?_, ?_⟩
  · rw [hT2, buildTree_eq_NF servers hg, nodeIpsList_NF, nodeIpsList_NF,
      skeleton_F servers hg]
  · rw [hT2, buildTree_eq_NF servers hg, edgesList_NF, edgesList_NF,
      skeleton_F servers hg]
  · rw [hflat]
    exact priorities_specFlatten (buildNF servers)

/-- The round-trip theorem instantiated on the demo hub/satellite list: the
hypotheses hold there and so does the conclusion. -/
theorem C1_roundtrip_iso_witness :
    ((demoC1.map Server.ip).Nodup
      ∧ (∀ s ∈ demoC1, s.parent_ip ≠ "" →
          ∃ p ∈ demoC1, p.ip = s.parent_ip)
      ∧ (∀ s ∈ demoC1, s.parent_ip ≠ "" →
          ∀ t ∈ demoC1, t.parent_ip ≠ s.ip)
      ∧ (∀ s ∈ demoC1, s.parent_ip ≠ s.ip))
    ∧ (nodeIpsList (buildTree (flattenTreeAndSync (buildTree demoC1)))
        = nodeIpsList (buildTree demoC1)
      ∧ edgesList (buildTree (flattenTreeAndSync (buildTree demoC1)))
        = edgesList (buildTree demoC1)
      ∧ (flattenTreeAndSync (buildTree demoC1)).map Server.priority
        = (List.range (flattenTreeAndSync (buildTree demoC1)).length).map
            (fun k : Nat => some (((k : Int) + 1) * 10))) :=
  ⟨⟨by decide, by decide, by decide, by decide⟩,
   C1_roundtrip_iso demoC1 (by decide) (by decide) (by decide)
     (by decide)⟩
